import Mathlib

/-!
Verification development for `mir_eval/util.py`.

Times are embedded as exact rationals (`ℚ`), numpy arrays of intervals as
`List (ℚ × ℚ)`, event arrays as `List ℚ`, and Python label lists as
`List String`.  Functions that can raise a Python exception return an
`Except PyErr` value.
-/

namespace MirEval

/-- Python-level errors the embedded functions can produce.  `invalidInput`
stands for the spec's `InvalidInputError` taxonomy entry; the source code
never defines or raises such an error, so no embedded definition produces
it. -/
inductive PyErr where
  | indexError
  | valueError
  | invalidInput
deriving DecidableEq, Repr

/-! ## `f_measure` -/

/-- Embedding of `util.f_measure` (src/mir_eval/util.py:118-139): the
weighted f-measure with an explicit guard for `precision == 0 and
recall == 0`. -/
def f_measure (precision recall_ beta : ℚ) : ℚ :=
  if precision = 0 ∧ recall_ = 0 then 0
  else (1 + beta ^ 2) * precision * recall_ / (beta ^ 2 * precision + recall_)

/-! ## `index_labels` -/

/-- Embedding of `util.index_labels` (src/mir_eval/util.py:7-42).  The
Python function folds labels with `str(s).lower()` unless `case_sensitive`;
for string labels `str` is the identity.  `sorted(set(labels))` becomes
sort-after-dedup; the returned `index_to_label` dict with keys `0..k-1` is
represented by the sorted list itself (index `i` maps to element `i`).
`indices` are positions in that sorted unique list, exactly the values of
the `label_to_index` dict. -/
def index_labels (labels : List String) (case_sensitive : Bool) :
    List Nat × List String :=
  let folded := if case_sensitive then labels else labels.map String.toLower
  let uniq := folded.dedup.mergeSort (fun a b => decide (a ≤ b))
  (folded.map (fun s => uniq.indexOf s), uniq)

/-! ## `boundaries_to_intervals` -/

/-- Embedding of `util.boundaries_to_intervals` (src/mir_eval/util.py:155-180):
`zip(boundaries[:-1], boundaries[1:])` plus `labels[:-1]`. -/
def boundaries_to_intervals (boundaries : List ℚ) (labels : Option (List String)) :
    List (ℚ × ℚ) × Option (List String) :=
  (boundaries.dropLast.zip boundaries.tail, labels.map (fun ls => ls.dropLast))

/-! ## `adjust_intervals` and `adjust_events`

Python label lists are passed by reference; `labels = labels[a:b]` rebinds
the local variable to a fresh copy, while `labels.insert(0, x)` and
`labels.append(x)` mutate the list object in place.  `LS` models the local
`labels` variable (`cur`), the caller's list object (`caller`), and whether
the local variable still aliases the caller's object (`aliased`). -/

/-- State of the `labels` variable inside `adjust_intervals`/`adjust_events`. -/
structure LS where
  cur : Option (List String)
  caller : Option (List String)
  aliased : Bool
deriving DecidableEq, Repr

/-- `labels = f(labels)` by slicing: rebinds the local variable to a fresh
list, leaving the caller's object untouched. -/
def LS.slice (f : List String → List String) (s : LS) : LS :=
  ⟨s.cur.map f, s.caller, false⟩

/-- `labels.insert(0, x)` / `labels.append(x)`: mutates the list object in
place; the caller observes the change iff the local variable still aliases
the caller's object. -/
def LS.mutate (f : List String → List String) (s : LS) : LS :=
  ⟨s.cur.map f, if s.aliased then s.caller.map f else s.caller, s.aliased⟩

/-- The `t_min` half of `util.adjust_intervals` (src/mir_eval/util.py:217-233):
drop the intervals that end strictly before `t_min` (slicing labels in
parallel when a crop point exists), clip every time to `≥ t_min`, then read
`intervals[0, 0]` (IndexError on an empty array) and prepend a synthetic
`[t_min, first_start]` interval labeled `pre ++ "T_MIN"` when the first
start still exceeds `t_min`. -/
def adjustMin (ivs : List (ℚ × ℚ)) (s : LS) (tmin : ℚ) (pre : String) :
    Except PyErr (List (ℚ × ℚ) × LS) :=
  let c := match ivs.findIdx? (fun iv => decide (tmin ≤ iv.2)) with
    | some k => (ivs.drop k, LS.slice (List.drop k) s)
    | none => (ivs, s)
  let ivs1 := c.1.map (fun iv => (max tmin iv.1, max tmin iv.2))
  match ivs1.head? with
  | none => .error .indexError
  | some iv0 =>
    if tmin < iv0.1 then
      .ok ((tmin, iv0.1) :: ivs1, LS.mutate (fun ls => (pre ++ "T_MIN") :: ls) c.2)
    else .ok (ivs1, c.2)

/-- The `t_max` half of `util.adjust_intervals` (src/mir_eval/util.py:235-253):
drop the intervals that start strictly after `t_max` (slicing labels when a
trim point exists), clip every time to `≤ t_max`, then read
`intervals[-1, -1]` (IndexError on an empty array) and append a synthetic
`[last_end, t_max]` interval labeled `pre ++ "T_MAX"` when the last end is
still below `t_max`.  Returns the function result together with the final
contents of the caller's labels object. -/
def adjustMax (ivs : List (ℚ × ℚ)) (s : LS) (t_max : Option ℚ) (pre : String) :
    Except PyErr (List (ℚ × ℚ) × Option (List String)) × Option (List String) :=
  match t_max with
  | none => (.ok (ivs, s.cur), s.caller)
  | some tmax =>
    let c := match ivs.findIdx? (fun iv => decide (tmax < iv.1)) with
      | some k => (ivs.take k, LS.slice (List.take k) s)
      | none => (ivs, s)
    let ivs1 := c.1.map (fun iv => (min tmax iv.1, min tmax iv.2))
    match ivs1.getLast? with
    | none => (.error .indexError, c.2.caller)
    | some ivl =>
      if ivl.2 < tmax then
        let s1 := LS.mutate (fun ls => ls ++ [pre ++ "T_MAX"]) c.2
        (.ok (ivs1 ++ [(ivl.2, tmax)], s1.cur), s1.caller)
      else (.ok (ivs1, c.2.cur), c.2.caller)

/-- Embedding of `util.adjust_intervals` (src/mir_eval/util.py:182-255).
The first component is the function's result (or the exception it raises);
the second component is the caller's labels object after the call, which
Python's in-place `insert`/`append` can have mutated. -/
def adjust_intervals (intervals : List (ℚ × ℚ)) (labels : Option (List String))
    (t_min t_max : Option ℚ) (pre : String) :
    Except PyErr (List (ℚ × ℚ) × Option (List String)) × Option (List String) :=
  match t_min with
  | none => adjustMax intervals ⟨labels, labels, true⟩ t_max pre
  | some tmin =>
    match adjustMin intervals ⟨labels, labels, true⟩ tmin pre with
    | .error e => (.error e, labels)
    | .ok (ivs1, s1) => adjustMax ivs1 s1 t_max pre

/-- The `t_min` half of `util.adjust_events` (src/mir_eval/util.py:285-299):
drop events strictly below `t_min` (slicing labels when a crop point
exists), read `events[0]` (IndexError on empty), and prepend `t_min` with a
synthetic label when the first event exceeds `t_min`. -/
def adjustEventsMin (events : List ℚ) (s : LS) (tmin : ℚ) (pre : String) :
    Except PyErr (List ℚ × LS) :=
  let c := match events.findIdx? (fun e => decide (tmin ≤ e)) with
    | some k => (events.drop k, LS.slice (List.drop k) s)
    | none => (events, s)
  match c.1.head? with
  | none => .error .indexError
  | some e0 =>
    if tmin < e0 then
      .ok (tmin :: c.1, LS.mutate (fun ls => (pre ++ "T_MIN") :: ls) c.2)
    else .ok (c.1, c.2)

/-- The `t_max` half of `util.adjust_events` (src/mir_eval/util.py:301-315). -/
def adjustEventsMax (events : List ℚ) (s : LS) (t_max : Option ℚ) (pre : String) :
    Except PyErr (List ℚ × Option (List String)) × Option (List String) :=
  match t_max with
  | none => (.ok (events, s.cur), s.caller)
  | some tmax =>
    let c := match events.findIdx? (fun e => decide (tmax < e)) with
      | some k => (events.take k, LS.slice (List.take k) s)
      | none => (events, s)
    match c.1.getLast? with
    | none => (.error .indexError, c.2.caller)
    | some el =>
      if el < tmax then
        let s1 := LS.mutate (fun ls => ls ++ [pre ++ "T_MAX"]) c.2
        (.ok (c.1 ++ [tmax], s1.cur), s1.caller)
      else (.ok (c.1, c.2.cur), c.2.caller)

/-- Embedding of `util.adjust_events` (src/mir_eval/util.py:257-317), with
the caller's labels object after the call as second component. -/
def adjust_events (events : List ℚ) (labels : Option (List String))
    (t_min t_max : Option ℚ) (pre : String) :
    Except PyErr (List ℚ × Option (List String)) × Option (List String) :=
  match t_min with
  | none => adjustEventsMax events ⟨labels, labels, true⟩ t_max pre
  | some tmin =>
    match adjustEventsMin events ⟨labels, labels, true⟩ tmin pre with
    | .error e => (.error e, labels)
    | .ok (evs1, s1) => adjustEventsMax evs1 s1 t_max pre

end MirEval

namespace MirEval

/-- C8: `f_measure(0, 0, beta) = 0` for every `beta` (explicit zero-guard),
and on every other input it equals
`(1 + beta^2) * precision * recall / (beta^2 * precision + recall)`. -/
theorem f_measure_spec (p r beta : ℚ) :
    f_measure 0 0 beta = 0 ∧
      (¬(p = 0 ∧ r = 0) →
        f_measure p r beta = (1 + beta ^ 2) * p * r / (beta ^ 2 * p + r)) := by
  refine ⟨by simp [f_measure], fun h => ?_⟩
  simp [f_measure, h]

/-- Witness for C8 at `precision = 1`, `recall = 0`, `beta = 2`. -/
theorem f_measure_spec_witness :
    f_measure 0 0 2 = 0 ∧
      f_measure 1 0 2 = (1 + 2 ^ 2) * 1 * 0 / (2 ^ 2 * 1 + 0) :=
  ⟨(f_measure_spec 1 0 2).1, (f_measure_spec 1 0 2).2 (by norm_num)⟩

/-- Helper: the case-folded view of the label list that `index_labels`
actually indexes. -/
def foldedLabels (labels : List String) (case_sensitive : Bool) : List String :=
  if case_sensitive then labels else labels.map String.toLower

theorem index_labels_fst (labels : List String) (cs : Bool) :
    (index_labels labels cs).1 =
      (foldedLabels labels cs).map
        (fun s => ((foldedLabels labels cs).dedup.mergeSort
          (fun a b => decide (a ≤ b))).indexOf s) := by
  simp [index_labels, foldedLabels]

theorem index_labels_snd (labels : List String) (cs : Bool) :
    (index_labels labels cs).2 =
      (foldedLabels labels cs).dedup.mergeSort (fun a b => decide (a ≤ b)) := by
  simp [index_labels, foldedLabels]

theorem foldedLabels_getD (labels : List String) (cs : Bool) (i : Nat)
    (hi : i < labels.length) :
    (foldedLabels labels cs).getD i "" =
      (if cs then labels.getD i "" else (labels.getD i "").toLower) := by
  cases cs <;> simp [foldedLabels, List.getD_eq_getElem?_getD, List.getElem?_map,
    List.getElem?_eq_getElem hi]

/-- C10: `index_labels` returns index list of the same length as the input;
looking an index back up in `index_to_label` recovers the case-folded label
(`str(labels[i]).lower()` when not case-sensitive, `labels[i]` itself when
case-sensitive); and labels with equal folded forms are mapped to the same
index. -/
theorem index_labels_spec (labels : List String) (cs : Bool) (i j : Nat)
    (hi : i < labels.length) (hj : j < labels.length) :
    (index_labels labels cs).1.length = labels.length ∧
      ((index_labels labels cs).2)[(index_labels labels cs).1.getD i 0]? =
        some (if cs then labels.getD i "" else (labels.getD i "").toLower) ∧
      ((if cs then labels.getD i "" else (labels.getD i "").toLower) =
          (if cs then labels.getD j "" else (labels.getD j "").toLower) →
        (index_labels labels cs).1.getD i 0 = (index_labels labels cs).1.getD j 0) := by
  have hlen : (foldedLabels labels cs).length = labels.length := by
    cases cs <;> simp [foldedLabels]
  have hif : i < (foldedLabels labels cs).length := by rw [hlen]; exact hi
  have hjf : j < (foldedLabels labels cs).length := by rw [hlen]; exact hj
  set uniq := (foldedLabels labels cs).dedup.mergeSort (fun a b => decide (a ≤ b)) with huniq
  have hidx : ∀ k : Nat, k < (foldedLabels labels cs).length →
      (index_labels labels cs).1.getD k 0 =
        uniq.indexOf ((foldedLabels labels cs).getD k "") := by
    intro k hk
    rw [index_labels_fst, List.getD_eq_getElem?_getD, List.getElem?_map,
      List.getElem?_eq_getElem hk, List.getD_eq_getElem?_getD,
      List.getElem?_eq_getElem hk]
    rfl
  have hmem : ∀ k : Nat, k < (foldedLabels labels cs).length →
      (foldedLabels labels cs).getD k "" ∈ uniq := by
    intro k hk
    rw [huniq, List.mem_mergeSort, List.mem_dedup, List.getD_eq_getElem?_getD,
      List.getElem?_eq_getElem hk]
    exact List.getElem_mem hk
  refine ⟨?_, ?_, ?_⟩
  · rw [index_labels_fst, List.length_map, hlen]
  · rw [hidx i hif, index_labels_snd, ← huniq,
      List.getElem?_eq_getElem (List.indexOf_lt_length.mpr (hmem i hif)),
      List.getElem_indexOf]
    rw [← foldedLabels_getD labels cs i hi]
  · intro hfold
    rw [hidx i hif, hidx j hjf, foldedLabels_getD labels cs i hi,
      foldedLabels_getD labels cs j hj, hfold]

/-- Witness for C10 at `labels = ["B", "a", "b"]`, `case_sensitive = false`,
`i = 0`, `j = 2` (folded forms of positions 0 and 2 are both `"b"`). -/
theorem index_labels_spec_witness :
    (index_labels ["B", "a", "b"] false).1.length = (["B", "a", "b"] : List String).length ∧
      ((index_labels ["B", "a", "b"] false).2)[(index_labels ["B", "a", "b"] false).1.getD 0 0]? =
        some (if false then (["B", "a", "b"] : List String).getD 0 ""
          else ((["B", "a", "b"] : List String).getD 0 "").toLower) ∧
      ((if false then (["B", "a", "b"] : List String).getD 0 ""
          else ((["B", "a", "b"] : List String).getD 0 "").toLower) =
          (if false then (["B", "a", "b"] : List String).getD 2 ""
          else ((["B", "a", "b"] : List String).getD 2 "").toLower) →
        (index_labels ["B", "a", "b"] false).1.getD 0 0 =
          (index_labels ["B", "a", "b"] false).1.getD 2 0) :=
  index_labels_spec ["B", "a", "b"] false 0 2 (by decide) (by decide)

/-- C7: from `n ≥ 2` strictly increasing boundaries, `boundaries_to_intervals`
returns `n - 1` intervals whose `k`-th entry is `(b_k, b_{k+1})`; a label
list of length `n` is returned with its final label dropped (length `n - 1`),
and `labels = None` is returned as `None`. -/
theorem boundaries_to_intervals_spec (b : List ℚ) (labels : List String)
    (hn : 2 ≤ b.length) (hinc : List.Chain' (· < ·) b)
    (hl : labels.length = b.length) :
    (boundaries_to_intervals b (some labels)).1.length = b.length - 1 ∧
      (∀ k, k < b.length - 1 →
        ((boundaries_to_intervals b (some labels)).1)[k]? =
          some (b.getD k 0, b.getD (k + 1) 0)) ∧
      (boundaries_to_intervals b (some labels)).2 = some labels.dropLast ∧
      labels.dropLast.length = b.length - 1 ∧
      (boundaries_to_intervals b none).2 = none := by
  refine ⟨?_, ?_, ?_, ?_, ?_⟩
  · simp [boundaries_to_intervals]
  · intro k hk
    have hk1 : k < b.length - 1 := hk
    have hkd : k < b.dropLast.length := by simpa [List.length_dropLast] using hk1
    have hkt : k + 1 < b.length := by omega
    rw [boundaries_to_intervals]
    rw [List.getElem?_zip_eq_some]
    constructor
    · rw [List.dropLast_eq_take, List.getElem?_take, if_pos hk1,
        List.getElem?_eq_getElem (by omega : k < b.length)]
      simp [List.getD_eq_getElem?_getD, List.getElem?_eq_getElem (by omega : k < b.length)]
    · rw [List.getElem?_tail, List.getElem?_eq_getElem hkt]
      simp [List.getD_eq_getElem?_getD, List.getElem?_eq_getElem hkt]
  · simp [boundaries_to_intervals]
  · simp [List.length_dropLast, hl]
  · simp [boundaries_to_intervals]

/-- Witness for C7 at `b = [0, 1, 2]`, `labels = ["a", "b", "c"]`. -/
theorem boundaries_to_intervals_spec_witness :
    (boundaries_to_intervals [0, 1, 2] (some ["a", "b", "c"])).1.length =
        ([0, 1, 2] : List ℚ).length - 1 ∧
      (∀ k, k < ([0, 1, 2] : List ℚ).length - 1 →
        ((boundaries_to_intervals [0, 1, 2] (some ["a", "b", "c"])).1)[k]? =
          some (([0, 1, 2] : List ℚ).getD k 0, ([0, 1, 2] : List ℚ).getD (k + 1) 0)) ∧
      (boundaries_to_intervals [0, 1, 2] (some ["a", "b", "c"])).2 =
        some (["a", "b", "c"] : List String).dropLast ∧
      (["a", "b", "c"] : List String).dropLast.length = ([0, 1, 2] : List ℚ).length - 1 ∧
      (boundaries_to_intervals [0, 1, 2] none).2 = none :=
  boundaries_to_intervals_spec [0, 1, 2] ["a", "b", "c"] (by decide)
    (by norm_num) (by decide)

end MirEval

namespace MirEval

/-- C4 counterexample: on an empty interval array (with the default
`t_min = 0.0`), `adjust_intervals` fails with a generic `IndexError` (from
the `intervals[0, 0]` access), not with `InvalidInputError`. -/
theorem adjust_intervals_empty_not_invalidInput :
    (adjust_intervals [] none (some 0) none "__").1 = .error .indexError ∧
      (Except.error .indexError :
        Except PyErr (List (ℚ × ℚ) × Option (List String))) ≠ .error .invalidInput := by
  exact ⟨rfl, by simp⟩

/-- C4 amended: `adjust_intervals` fails with a generic `IndexError`
whenever the interval sequence surviving the `t_min`/`t_max` filtering is
empty: on an empty interval array (as soon as `t_min` or `t_max` is given),
and when every interval starts strictly after a given `t_max` (with
`t_min` absent). -/
theorem adjust_intervals_empty_indexError :
    (∀ (labels : Option (List String)) (pre : String) (tmin : Option ℚ) (tmax : Option ℚ),
      tmin ≠ none ∨ tmax ≠ none →
      (adjust_intervals [] labels tmin tmax pre).1 = .error .indexError) ∧
    (∀ (ivs : List (ℚ × ℚ)) (labels : Option (List String)) (pre : String) (tmax : ℚ),
      ivs ≠ [] → (∀ iv ∈ ivs, tmax < iv.1) →
      (adjust_intervals ivs labels none (some tmax) pre).1 = .error .indexError) := by
  constructor
  · intro labels pre tmin tmax h
    match tmin with
    | some a => simp [adjust_intervals, adjustMin]
    | none =>
      match tmax with
      | some b => simp [adjust_intervals, adjustMax]
      | none => simp at h
  · intro ivs labels pre tmax hne hall
    match ivs with
    | iv :: rest =>
      have h0 : tmax < iv.1 := hall iv (List.mem_cons_self iv rest)
      simp [adjust_intervals, adjustMax, List.findIdx?_cons, h0]

/-- Witness for C4's amended theorem at two concrete inputs. -/
theorem adjust_intervals_empty_indexError_witness :
    (adjust_intervals [] none (some 0) none "__").1 = .error .indexError ∧
      (adjust_intervals [((5 : ℚ), 6)] none none (some 3) "__").1 = .error .indexError :=
  ⟨adjust_intervals_empty_indexError.1 none "__" (some 0) none (Or.inl (by simp)),
   adjust_intervals_empty_indexError.2 [((5 : ℚ), 6)] none "__" 3 (by simp)
     (by intro iv hiv; simp at hiv; rw [hiv]; norm_num)⟩

/-- C9 (code bug): `adjust_intervals` called with `labels = ["a"]`,
`t_min = None`, `t_max = 2` on `[[0, 1]]` appends `"__T_MAX"` to the
caller's labels list in place (no slice ever rebound the local variable to
a copy), so the caller's list is mutated from `["a"]` to
`["a", "__T_MAX"]`. -/
theorem adjust_intervals_mutates_caller :
    (adjust_intervals [((0 : ℚ), 1)] (some ["a"]) none (some 2) "__").2 =
        some ["a", "__T_MAX"] ∧
      (some ["a", "__T_MAX"] : Option (List String)) ≠ some ["a"] := by
  exact ⟨rfl, by simp⟩

end MirEval

namespace MirEval

/-- After a successful `t_min` phase the surviving intervals are nonempty,
still contiguous, still have `start ≤ end`, and start exactly at `t_min`. -/
theorem adjustMin_ok_props (ivs : List (ℚ × ℚ)) (s : LS) (tmin : ℚ) (pre : String)
    (mid : List (ℚ × ℚ)) (s1 : LS)
    (hok : adjustMin ivs s tmin pre = .ok (mid, s1))
    (hchain : List.Chain' (fun a b => a.2 = b.1) ivs)
    (hle : ∀ iv ∈ ivs, iv.1 ≤ iv.2) :
    (∃ m0, mid.head? = some m0 ∧ m0.1 = tmin) ∧
      List.Chain' (fun a b => a.2 = b.1) mid ∧ ∀ iv ∈ mid, iv.1 ≤ iv.2 := by
  have base :
      ∃ b : List (ℚ × ℚ), ∃ s' : LS,
        adjustMin ivs s tmin pre =
          (match (b.map (fun iv => (max tmin iv.1, max tmin iv.2))).head? with
          | none => .error .indexError
          | some iv0 =>
            if tmin < iv0.1 then
              .ok ((tmin, iv0.1) :: b.map (fun iv => (max tmin iv.1, max tmin iv.2)),
                LS.mutate (fun ls => (pre ++ "T_MIN") :: ls) s')
            else .ok (b.map (fun iv => (max tmin iv.1, max tmin iv.2)), s')) ∧
        List.Chain' (fun a b => a.2 = b.1) b ∧ ∀ iv ∈ b, iv.1 ≤ iv.2 := by
    cases h : ivs.findIdx? (fun iv => decide (tmin ≤ iv.2)) with
    | none =>
      exact ⟨ivs, s, by simp only [adjustMin, h], hchain, hle⟩
    | some k =>
      exact ⟨ivs.drop k, LS.slice (List.drop k) s, by simp only [adjustMin, h],
        hchain.drop k, fun iv hiv => hle iv (List.drop_subset k ivs hiv)⟩
  obtain ⟨b, s', hb, hbchain, hble⟩ := base
  rw [hb] at hok
  have hchain1 : List.Chain' (fun a c : ℚ × ℚ => a.2 = c.1)
      (b.map (fun iv => (max tmin iv.1, max tmin iv.2))) := by
    rw [List.chain'_map]
    exact hbchain.imp (fun a c h => by simp [h])
  have hle1 : ∀ iv ∈ b.map (fun iv => (max tmin iv.1, max tmin iv.2)), iv.1 ≤ iv.2 := by
    intro iv hiv
    obtain ⟨x, hx, rfl⟩ := List.mem_map.mp hiv
    exact max_le_max le_rfl (hble x hx)
  cases hh : (b.map (fun iv => (max tmin iv.1, max tmin iv.2))).head? with
  | none => rw [hh] at hok; exact absurd hok (by simp)
  | some iv0 =>
    simp only [hh] at hok
    have hb0 : ∃ x, b.head? = some x ∧ iv0 = (max tmin x.1, max tmin x.2) := by
      cases hb0 : b.head? with
      | none => rw [List.head?_map, hb0] at hh; simp at hh
      | some x =>
        rw [List.head?_map, hb0] at hh
        exact ⟨x, rfl, by simpa using hh.symm⟩
    have hiv0ge : tmin ≤ iv0.1 := by
      obtain ⟨x, _, rfl⟩ := hb0
      exact le_max_left _ _
    by_cases hlt : tmin < iv0.1
    · rw [if_pos hlt] at hok
      simp only [Except.ok.injEq, Prod.mk.injEq] at hok
      obtain ⟨rfl, rfl⟩ := hok
      refine ⟨⟨(tmin, iv0.1), rfl, rfl⟩, ?_, ?_⟩
      · rw [List.chain'_cons']
        exact ⟨fun y hy => by rw [hh] at hy; cases hy; rfl, hchain1⟩
      · intro iv hiv
        rcases List.mem_cons.mp hiv with h | h
        · rw [h]; exact le_of_lt hlt
        · exact hle1 iv h
    · rw [if_neg hlt] at hok
      simp only [Except.ok.injEq, Prod.mk.injEq] at hok
      obtain ⟨rfl, rfl⟩ := hok
      exact ⟨⟨iv0, hh, le_antisymm (not_lt.mp hlt) hiv0ge⟩, hchain1, hle1⟩

end MirEval

namespace MirEval

/-- Core of the `t_max` half: after clipping a nonempty contiguous list that
starts at `t_min ≤ t_max`, both result shapes of the final branch (with or
without the appended synthetic interval) start at `t_min`, end at `t_max`,
and stay a contiguous `start ≤ end` tiling. -/
theorem clipTailProps (b : List (ℚ × ℚ)) (tmax tmin : ℚ) (out : List (ℚ × ℚ))
    (hchain : List.Chain' (fun a c => a.2 = c.1) b)
    (hle : ∀ iv ∈ b, iv.1 ≤ iv.2)
    (hhead : ∃ m0, b.head? = some m0 ∧ m0.1 = tmin ∧ m0.1 ≤ tmax)
    (hshape :
      (∃ ivl, (b.map (fun iv => (min tmax iv.1, min tmax iv.2))).getLast? = some ivl ∧
        ivl.2 < tmax ∧
        out = b.map (fun iv => (min tmax iv.1, min tmax iv.2)) ++ [(ivl.2, tmax)]) ∨
      (∃ ivl, (b.map (fun iv => (min tmax iv.1, min tmax iv.2))).getLast? = some ivl ∧
        ¬ivl.2 < tmax ∧
        out = b.map (fun iv => (min tmax iv.1, min tmax iv.2)))) :
    (∃ o0, out.head? = some o0 ∧ o0.1 = tmin) ∧
      (∃ ol, out.getLast? = some ol ∧ ol.2 = tmax) ∧
      List.Chain' (fun a c => a.2 = c.1) out ∧ ∀ iv ∈ out, iv.1 ≤ iv.2 := by
  obtain ⟨m0, hm0, hm0tmin, hm0tmax⟩ := hhead
  have hchain1 : List.Chain' (fun a c : ℚ × ℚ => a.2 = c.1)
      (b.map (fun iv => (min tmax iv.1, min tmax iv.2))) := by
    rw [List.chain'_map]
    exact hchain.imp (fun a c h => by simp [h])
  have hle1 : ∀ iv ∈ b.map (fun iv => (min tmax iv.1, min tmax iv.2)), iv.1 ≤ iv.2 := by
    intro iv hiv
    obtain ⟨x, hx, rfl⟩ := List.mem_map.mp hiv
    exact min_le_min le_rfl (hle x hx)
  have hbound : ∀ iv ∈ b.map (fun iv => (min tmax iv.1, min tmax iv.2)), iv.2 ≤ tmax := by
    intro iv hiv
    obtain ⟨x, _, rfl⟩ := List.mem_map.mp hiv
    exact min_le_left _ _
  have hhead1 : (b.map (fun iv => (min tmax iv.1, min tmax iv.2))).head? =
      some (tmin, min tmax m0.2) := by
    rw [List.head?_map, hm0, Option.map_some', min_eq_right hm0tmax, hm0tmin]
  rcases hshape with ⟨ivl, hl, hlt, rfl⟩ | ⟨ivl, hl, hlt, rfl⟩
  · refine ⟨⟨(tmin, min tmax m0.2), ?_, rfl⟩, ⟨(ivl.2, tmax), ?_, rfl⟩, ?_, ?_⟩
    · rw [List.head?_append, hhead1]; rfl
    · rw [List.getLast?_concat]
    · rw [List.chain'_append]
      refine ⟨hchain1, List.chain'_singleton _, ?_⟩
      intro x hx y hy
      simp only [List.head?_cons, Option.mem_def, Option.some.injEq] at hy
      rw [hl] at hx
      cases hx
      rw [← hy]
    · intro iv hiv
      rcases List.mem_append.mp hiv with h | h
      · exact hle1 iv h
      · simp only [List.mem_singleton] at h
        rw [h]
        exact le_of_lt hlt
  · refine ⟨⟨(tmin, min tmax m0.2), hhead1, rfl⟩, ⟨ivl, hl, ?_⟩, hchain1, hle1⟩
    exact le_antisymm (hbound ivl (List.mem_of_mem_getLast? hl)) (not_lt.mp hlt)

end MirEval

namespace MirEval

/-- After a successful `t_max` phase on a nonempty contiguous input starting
at `t_min`, the output starts at `t_min`, ends exactly at `t_max`, and is a
contiguous `start ≤ end` tiling. -/
theorem adjustMax_ok_props (m0 : ℚ × ℚ) (mrest : List (ℚ × ℚ)) (s : LS)
    (tmax tmin : ℚ) (pre : String) (out : List (ℚ × ℚ)) (ls : Option (List String))
    (hok : (adjustMax (m0 :: mrest) s (some tmax) pre).1 = .ok (out, ls))
    (hm0tmin : m0.1 = tmin)
    (hchain : List.Chain' (fun a c => a.2 = c.1) (m0 :: mrest))
    (hle : ∀ iv ∈ m0 :: mrest, iv.1 ≤ iv.2) :
    (∃ o0, out.head? = some o0 ∧ o0.1 = tmin) ∧
      (∃ ol, out.getLast? = some ol ∧ ol.2 = tmax) ∧
      List.Chain' (fun a c => a.2 = c.1) out ∧ ∀ iv ∈ out, iv.1 ≤ iv.2 := by
  cases h : (m0 :: mrest).findIdx? (fun iv => decide (tmax < iv.1)) with
  | none =>
    have hp := List.findIdx?_eq_none_iff.mp h m0 (List.mem_cons_self m0 mrest)
    have hm0max : m0.1 ≤ tmax := not_lt.mp (of_decide_eq_false hp)
    simp only [adjustMax, h] at hok
    cases hl : ((m0 :: mrest).map (fun iv => (min tmax iv.1, min tmax iv.2))).getLast? with
    | none => simp only [hl] at hok; exact Except.noConfusion hok
    | some ivl =>
      simp only [hl] at hok
      by_cases hlt : ivl.2 < tmax
      · rw [if_pos hlt] at hok
        simp only [Except.ok.injEq, Prod.mk.injEq] at hok
        exact clipTailProps (m0 :: mrest) tmax tmin out hchain hle
          ⟨m0, rfl, hm0tmin, hm0max⟩ (Or.inl ⟨ivl, hl, hlt, hok.1.symm⟩)
      · rw [if_neg hlt] at hok
        simp only [Except.ok.injEq, Prod.mk.injEq] at hok
        exact clipTailProps (m0 :: mrest) tmax tmin out hchain hle
          ⟨m0, rfl, hm0tmin, hm0max⟩ (Or.inr ⟨ivl, hl, hlt, hok.1.symm⟩)
  | some k =>
    cases k with
    | zero =>
      simp only [adjustMax, h] at hok
      simp at hok
    | succ k =>
      have hp : decide (tmax < m0.1) = false := by
        rw [List.findIdx?_cons] at h
        by_cases hd : decide (tmax < m0.1) = true
        · rw [if_pos hd] at h
          simp at h
        · simpa using hd
      have hm0max : m0.1 ≤ tmax := not_lt.mp (of_decide_eq_false hp)
      simp only [adjustMax, h] at hok
      have htake : (m0 :: mrest).take (k + 1) = m0 :: mrest.take k := rfl
      rw [htake] at hok
      have hchainT : List.Chain' (fun a c : ℚ × ℚ => a.2 = c.1) (m0 :: mrest.take k) := by
        have := hchain.take (k + 1)
        rwa [htake] at this
      have hleT : ∀ iv ∈ m0 :: mrest.take k, iv.1 ≤ iv.2 := by
        intro iv hiv
        rw [← htake] at hiv
        exact hle iv (List.take_subset _ _ hiv)
      cases hl : ((m0 :: mrest.take k).map
          (fun iv => (min tmax iv.1, min tmax iv.2))).getLast? with
      | none => simp only [hl] at hok; exact Except.noConfusion hok
      | some ivl =>
        simp only [hl] at hok
        by_cases hlt : ivl.2 < tmax
        · rw [if_pos hlt] at hok
          simp only [Except.ok.injEq, Prod.mk.injEq] at hok
          exact clipTailProps (m0 :: mrest.take k) tmax tmin out hchainT hleT
            ⟨m0, rfl, hm0tmin, hm0max⟩ (Or.inl ⟨ivl, hl, hlt, hok.1.symm⟩)
        · rw [if_neg hlt] at hok
          simp only [Except.ok.injEq, Prod.mk.injEq] at hok
          exact clipTailProps (m0 :: mrest.take k) tmax tmin out hchainT hleT
            ⟨m0, rfl, hm0tmin, hm0max⟩ (Or.inr ⟨ivl, hl, hlt, hok.1.symm⟩)

end MirEval

namespace MirEval

/-- C6 counterexample: the valid (per the data model, `start ≤ end`) but
non-contiguous input `[[0, 1], [2, 3]]` with `t_min = 0`, `t_max = 3`
succeeds and is returned unchanged, so the output is not a contiguous
tiling of `[t_min, t_max]` (interval 0 ends at 1 but interval 1 starts
at 2). -/
theorem adjust_intervals_gap_not_tiling :
    (adjust_intervals [((0 : ℚ), 1), (2, 3)] none (some 0) (some 3) "__").1 =
        .ok ([((0 : ℚ), 1), (2, 3)], none) ∧
      ¬ List.Chain' (fun a c : ℚ × ℚ => a.2 = c.1) [((0 : ℚ), 1), (2, 3)] := by
  constructor
  · rfl
  · rw [List.chain'_pair]
    norm_num

/-- C6 amended: for every *contiguous* valid input (each interval's end
equals the next interval's start and each start is at most its end) on
which `adjust_intervals` succeeds with both `t_min` and `t_max` given, the
returned intervals start at exactly `t_min`, end at exactly `t_max`, and
form a non-overlapping contiguous tiling of `[t_min, t_max]`. -/
theorem adjust_intervals_tiling (ivs : List (ℚ × ℚ)) (labels : Option (List String))
    (tmin tmax : ℚ) (pre : String) (out : List (ℚ × ℚ)) (ls : Option (List String))
    (hchain : List.Chain' (fun a c => a.2 = c.1) ivs)
    (hle : ∀ iv ∈ ivs, iv.1 ≤ iv.2)
    (hok : (adjust_intervals ivs labels (some tmin) (some tmax) pre).1 = .ok (out, ls)) :
    (∃ o0, out.head? = some o0 ∧ o0.1 = tmin) ∧
      (∃ ol, out.getLast? = some ol ∧ ol.2 = tmax) ∧
      List.Chain' (fun a c => a.2 = c.1) out ∧ ∀ iv ∈ out, iv.1 ≤ iv.2 := by
  cases hmin : adjustMin ivs ⟨labels, labels, true⟩ tmin pre with
  | error e =>
    simp only [adjust_intervals, hmin] at hok
    exact Except.noConfusion hok
  | ok p =>
    obtain ⟨mid, s1⟩ := p
    simp only [adjust_intervals, hmin] at hok
    obtain ⟨⟨m0, hm0head, hm0tmin⟩, hchainM, hleM⟩ :=
      adjustMin_ok_props ivs ⟨labels, labels, true⟩ tmin pre mid s1 hmin hchain hle
    cases mid with
    | nil => exact Option.noConfusion hm0head
    | cons a mrest =>
      have ha : a = m0 := by
        simpa using hm0head
      subst ha
      exact adjustMax_ok_props a mrest s1 tmax tmin pre out ls hok hm0tmin hchainM hleM

/-- Witness for C6's amended theorem at
`intervals = [[1, 2], [2, 3]]`, `t_min = 0`, `t_max = 4`. -/
theorem adjust_intervals_tiling_witness :
    (∃ o0, ([((0 : ℚ), 1), (1, 2), (2, 3), (3, 4)] : List (ℚ × ℚ)).head? = some o0 ∧
        o0.1 = 0) ∧
      (∃ ol, ([((0 : ℚ), 1), (1, 2), (2, 3), (3, 4)] : List (ℚ × ℚ)).getLast? = some ol ∧
        ol.2 = 4) ∧
      List.Chain' (fun a c : ℚ × ℚ => a.2 = c.1) [((0 : ℚ), 1), (1, 2), (2, 3), (3, 4)] ∧
      ∀ iv ∈ ([((0 : ℚ), 1), (1, 2), (2, 3), (3, 4)] : List (ℚ × ℚ)), iv.1 ≤ iv.2 :=
  adjust_intervals_tiling [((1 : ℚ), 2), (2, 3)] none 0 4 "__"
    [((0 : ℚ), 1), (1, 2), (2, 3), (3, 4)] none
    (by rw [List.chain'_pair])
    (by
      intro iv hiv
      simp only [List.mem_cons, List.not_mem_nil, or_false] at hiv
      rcases hiv with h | h <;> rw [h] <;> norm_num)
    (by rfl)

end MirEval

namespace MirEval

/-- `np.unique`: flatten, sort ascending, drop duplicates. -/
def uniqueSorted (l : List ℚ) : List ℚ :=
  (l.mergeSort (fun a c => decide (a ≤ c))).dedup

/-- One label lookup of the merge loop (src/mir_eval/util.py:398-402):
`x_idx = x_label_range[(t0 >= x_intervals[:, 0])]` (numpy boolean masking
demands that the mask length equal the indexed range's length, else
IndexError), then `x_labels[x_idx[-1]]` (IndexError when no index
qualifies). -/
def labelAt (ivs : List (ℚ × ℚ)) (ls : List String) (t0 : ℚ) : Except PyErr String :=
  if ls.length = ivs.length then
    match ((List.range ls.length).filter
        (fun i => decide ((ivs.getD i (0, 0)).1 ≤ t0))).getLast? with
    | some i => .ok (ls.getD i "")
    | none => .error .indexError
  else .error .indexError

/-- Embedding of `util.merge_labeled_intervals` (src/mir_eval/util.py:354-403).
The alignment check reads `x_intervals[0, 0]`, `y_intervals[0, 0]`,
`x_intervals[-1, 1]` and `y_intervals[-1, 1]` (IndexError on an empty
array) and raises `ValueError` when the two extents disagree; otherwise the
boundary union is refined into consecutive pairs and the active label of
each side is looked up per refined interval. -/
def merge_labeled_intervals (x : List (ℚ × ℚ)) (xl : List String)
    (y : List (ℚ × ℚ)) (yl : List String) :
    Except PyErr (List (ℚ × ℚ) × List String × List String) :=
  match x.head?, y.head?, x.getLast?, y.getLast? with
  | some xh, some yh, some xlast, some ylast =>
    if xh.1 = yh.1 ∧ xlast.2 = ylast.2 then
      let tb := uniqueSorted ((x ++ y).flatMap (fun iv => [iv.1, iv.2]))
      let out := tb.dropLast.zip tb.tail
      match out.foldlM (fun (acc : List String × List String) t => do
          let lx ← labelAt x xl t.1
          let ly ← labelAt y yl t.1
          pure (acc.1 ++ [lx], acc.2 ++ [ly])) (([], []) : List String × List String) with
      | .ok (lxs, lys) => .ok (out, lxs, lys)
      | .error e => .error e
    else .error .valueError
  | _, _, _, _ => .error .indexError

/-- `Except` bind on an error short-circuits (definitional). -/
theorem bind_error_eq {α β : Type} (e : PyErr) (f : α → Except PyErr β) :
    (Except.error e >>= f) = Except.error e := rfl

/-- `Except` bind on a success applies the continuation (definitional). -/
theorem bind_ok_eq {α β : Type} (a : α) (f : α → Except PyErr β) :
    (Except.ok a >>= f) = f a := rfl

/-- `labelAt` can only fail with an IndexError. -/
theorem labelAt_error (ivs : List (ℚ × ℚ)) (ls : List String) (t0 : ℚ) (e : PyErr)
    (h : labelAt ivs ls t0 = .error e) : e = .indexError := by
  unfold labelAt at h
  by_cases hlen : ls.length = ivs.length
  · rw [if_pos hlen] at h
    cases hl : ((List.range ls.length).filter
        (fun i => decide ((ivs.getD i (0, 0)).1 ≤ t0))).getLast? with
    | none => rw [hl] at h; exact (Except.error.injEq _ _).mp h.symm |>.symm ▸ rfl
    | some i => rw [hl] at h; exact Except.noConfusion h
  · rw [if_neg hlen] at h
    exact (Except.error.injEq _ _).mp h.symm |>.symm ▸ rfl

/-- The merge label loop can only fail with an IndexError. -/
theorem mergeLoop_error (x y : List (ℚ × ℚ)) (xl yl : List String)
    (l : List (ℚ × ℚ)) (e : PyErr) :
    ∀ acc : List String × List String,
    l.foldlM (fun (acc : List String × List String) t => do
        let lx ← labelAt x xl t.1
        let ly ← labelAt y yl t.1
        pure (acc.1 ++ [lx], acc.2 ++ [ly])) acc = .error e → e = .indexError := by
  induction l with
  | nil => intro acc h; rw [List.foldlM_nil] at h; exact Except.noConfusion h
  | cons t ts ih =>
    intro acc h
    rw [List.foldlM_cons] at h
    cases hlx : labelAt x xl t.1 with
    | error e1 =>
      simp only [hlx, bind_error_eq] at h
      cases h
      exact labelAt_error x xl t.1 _ hlx
    | ok lx =>
      cases hly : labelAt y yl t.1 with
      | error e2 =>
        simp only [hlx, hly, bind_ok_eq, bind_error_eq] at h
        cases h
        exact labelAt_error y yl t.1 _ hly
      | ok ly =>
        simp only [hlx, hly, bind_ok_eq] at h
        rw [show ((pure (acc.1 ++ [lx], acc.2 ++ [ly]) :
          Except PyErr (List String × List String)) >>= fun init =>
            List.foldlM (fun (acc : List String × List String) t => do
              let lx ← labelAt x xl t.1
              let ly ← labelAt y yl t.1
              pure (acc.1 ++ [lx], acc.2 ++ [ly])) init ts) =
            List.foldlM (fun (acc : List String × List String) t => do
              let lx ← labelAt x xl t.1
              let ly ← labelAt y yl t.1
              pure (acc.1 ++ [lx], acc.2 ++ [ly])) (acc.1 ++ [lx], acc.2 ++ [ly]) ts
          from rfl] at h
        exact ih _ h

/-- C5: with nonempty inputs, `merge_labeled_intervals` raises the
misalignment error (the `ValueError` standing for the spec's
`MisalignedIntervalsError`) exactly when the two overall extents disagree:
`x[0].start ≠ y[0].start` or `x[-1].end ≠ y[-1].end`.  When the extents
match it never raises that error. -/
theorem merge_misaligned_iff (x y : List (ℚ × ℚ)) (xl yl : List String)
    (hx : x ≠ []) (hy : y ≠ []) :
    merge_labeled_intervals x xl y yl = .error .valueError ↔
      ((x.head hx).1 ≠ (y.head hy).1 ∨ (x.getLast hx).2 ≠ (y.getLast hy).2) := by
  have hxh := List.head?_eq_head hx
  have hyh := List.head?_eq_head hy
  have hxl := List.getLast?_eq_getLast x hx
  have hyl := List.getLast?_eq_getLast y hy
  by_cases hc : (x.head hx).1 = (y.head hy).1 ∧ (x.getLast hx).2 = (y.getLast hy).2
  · constructor
    · intro h
      exfalso
      rw [merge_labeled_intervals] at h
      rw [hxh, hyh, hxl, hyl] at h
      simp only [if_pos hc] at h
      set out := (uniqueSorted ((x ++ y).flatMap (fun iv => [iv.1, iv.2]))).dropLast.zip
        (uniqueSorted ((x ++ y).flatMap (fun iv => [iv.1, iv.2]))).tail with hout
      cases hfold : out.foldlM (fun (acc : List String × List String) t => do
          let lx ← labelAt x xl t.1
          let ly ← labelAt y yl t.1
          pure (acc.1 ++ [lx], acc.2 ++ [ly])) (([], []) : List String × List String) with
      | ok p =>
        rw [hfold] at h
        obtain ⟨lxs, lys⟩ := p
        exact Except.noConfusion h
      | error e =>
        rw [hfold] at h
        cases h
        exact absurd (mergeLoop_error x y xl yl out _ _ hfold) (by simp)
    · intro h
      rcases h with h | h
      · exact absurd hc.1 h
      · exact absurd hc.2 h
  · constructor
    · intro _
      rcases not_and_or.mp hc with h | h
      · exact Or.inl h
      · exact Or.inr h
    · intro _
      rw [merge_labeled_intervals, hxh, hyh, hxl, hyl]
      simp only [if_neg hc]

/-- Witness for C5 at aligned inputs `x = [[0, 1]]`, `y = [[0, 1]]` (the
merge does not raise the misalignment error) — both sides of the
equivalence are false there. -/
theorem merge_misaligned_iff_witness :
    merge_labeled_intervals [((0 : ℚ), 1)] ["a"] [((0 : ℚ), 1)] ["b"] = .error .valueError ↔
      ((([((0 : ℚ), 1)] : List (ℚ × ℚ)).head (by simp)).1 ≠
          (([((0 : ℚ), 1)] : List (ℚ × ℚ)).head (by simp)).1 ∨
        (([((0 : ℚ), 1)] : List (ℚ × ℚ)).getLast (by simp)).2 ≠
          (([((0 : ℚ), 1)] : List (ℚ × ℚ)).getLast (by simp)).2) :=
  merge_misaligned_iff [((0 : ℚ), 1)] [((0 : ℚ), 1)] ["a"] ["b"] (by simp) (by simp)

end MirEval

namespace MirEval

/-! ## `_bipartite_match` and `match_events`

Python dicts preserve insertion order; they are embedded as
insertion-ordered association lists over `Nat` keys.  `d[k] = v` updates in
place when `k` is present and appends otherwise; `del d[k]` removes the
entry.  `_bipartite_match`'s `pred[u]` stores either the `unmatched` list
used as a sentinel ("u is a free first-layer vertex") or a vertex of `V`;
this is embedded as `Option Nat` with `none` as the sentinel. -/

/-- `d[k]` (as `Option`). -/
def dlookup {β : Type} (l : List (Nat × β)) (k : Nat) : Option β :=
  match l with
  | [] => none
  | (k', v) :: t => if k' = k then some v else dlookup t k

/-- `d[k] = v`: update in place, else append. -/
def dinsert {β : Type} (l : List (Nat × β)) (k : Nat) (v : β) : List (Nat × β) :=
  match l with
  | [] => [(k, v)]
  | (k', v') :: t => if k' = k then (k, v) :: t else (k', v') :: dinsert t k v

/-- `del d[k]` (the algorithm only ever deletes present keys). -/
def derase {β : Type} (l : List (Nat × β)) (k : Nat) : List (Nat × β) :=
  match l with
  | [] => []
  | (k', v') :: t => if k' = k then t else (k', v') :: derase t k

/-- `d.setdefault(k, []).append(u)`. -/
def dappend (l : List (Nat × List Nat)) (k u : Nat) : List (Nat × List Nat) :=
  match l with
  | [] => [(k, [u])]
  | (k', vs) :: t => if k' = k then (k', vs ++ [u]) :: t else (k', vs) :: dappend t k u

/-- The greedy seeding loop of `_bipartite_match`
(src/mir_eval/util.py:417-423): each `u` claims its first currently
unmatched neighbor `v`. -/
def greedy (graph : List (Nat × List Nat)) : List (Nat × Nat) :=
  graph.foldl (fun matching p =>
    match p.2.find? (fun v => (dlookup matching v).isNone) with
    | some v => dinsert matching v p.1
    | none => matching) []

/-- State of the layering (BFS) phase of `_bipartite_match`. -/
structure BfsSt where
  preds : List (Nat × List Nat)
  pred : List (Nat × Option Nat)
  layer : List Nat
  unmatched : List Nat
deriving Repr

/-- One scan of the current layer (src/mir_eval/util.py:440-444): collect
`newLayer`, mapping each not-yet-layered `v` to its predecessors in `layer`. -/
def scanLayer (graph : List (Nat × List Nat)) (preds : List (Nat × List Nat))
    (layer : List Nat) : List (Nat × List Nat) :=
  layer.foldl (fun nl u =>
    ((dlookup graph u).getD []).foldl (fun nl v =>
      if (dlookup preds v).isSome then nl else dappend nl v u) nl) []

/-- Processing of `newLayer` (src/mir_eval/util.py:445-452): commit each
`v` to `preds`; matched `v`s extend the next layer and set
`pred[matching[v]] = v`, unmatched `v`s are appended to `unmatched`. -/
def procNew (matching : List (Nat × Nat)) (st : BfsSt) (nl : List (Nat × List Nat)) :
    BfsSt :=
  nl.foldl (fun st p =>
    let st := { st with preds := dinsert st.preds p.1 p.2 }
    match dlookup matching p.1 with
    | some u => { st with pred := dinsert st.pred u (some p.1), layer := st.layer ++ [u] }
    | none => { st with unmatched := st.unmatched ++ [p.1] }) st

/-- The layering loop (src/mir_eval/util.py:439-452):
`while layer and not unmatched`.  Fuel-indexed; the fuel chosen by the
caller always suffices. -/
def bfsLoop (graph : List (Nat × List Nat)) (matching : List (Nat × Nat)) :
    Nat → BfsSt → Option BfsSt
  | 0, _ => none
  | fuel + 1, st =>
    if st.layer = [] ∨ st.unmatched ≠ [] then some st
    else
      let nl := scanLayer graph st.preds st.layer
      bfsLoop graph matching fuel (procNew matching { st with layer := [] } nl)

/-- State of the augmenting (recursive) phase of `_bipartite_match`. -/
structure AugSt where
  preds : List (Nat × List Nat)
  pred : List (Nat × Option Nat)
  matching : List (Nat × Nat)
deriving Repr

/-- The `for u in L` loop inside `recurse` (src/mir_eval/util.py:468-475),
parameterized by the recursive call used for `recurse(pu)`; structural in
the list. -/
def recgo (rec_ : AugSt → Nat → AugSt × Bool) :
    AugSt → Nat → List Nat → AugSt × Bool
  | st, _, [] => (st, false)
  | st, v, u :: rest =>
    match dlookup st.pred u with
    | none => recgo rec_ st v rest
    | some pu =>
      let st := { st with pred := derase st.pred u }
      match pu with
      | none => ({ st with matching := dinsert st.matching v u }, true)
      | some v' =>
        match rec_ st v' with
        | (st', true) => ({ st' with matching := dinsert st'.matching v u }, true)
        | (st', false) => recgo rec_ st' v rest

/-- `recurse(v)` (src/mir_eval/util.py:465-476).  The fuel only bounds the
recursion depth; each level deletes a `preds` entry before recursing, so
`preds.length + 1` fuel at a top-level call makes the fuel-exhaustion
branch unreachable (the depth-`d` call still has positive fuel whenever its
vertex is present in `preds`). -/
def recurse : Nat → AugSt → Nat → AugSt × Bool
  | 0, st, _ => (st, false)
  | fuel + 1, st, v =>
    match dlookup st.preds v with
    | none => (st, false)
    | some L => recgo (recurse fuel) { st with preds := derase st.preds v } v L

/-- The distinct members of `V` mentioned by the graph, bounding how many
keys `preds` or `matching` can ever hold. -/
def vset (graph : List (Nat × List Nat)) : List Nat :=
  (graph.flatMap (fun p => p.2)).dedup

/-- The `while True` loop of `_bipartite_match`
(src/mir_eval/util.py:425-479): per round, delete the matched `u`s from the
fresh `pred` table, layer from the remaining free `u`s, and either return
`matching` (no unmatched `v` reached) or run `recurse` over the unmatched
`v`s and repeat.  Fuel-indexed; `vset graph + 2` rounds always suffice. -/
def bmLoop (graph : List (Nat × List Nat)) :
    Nat → List (Nat × Nat) → Option (List (Nat × Nat))
  | 0, _ => none
  | fuel + 1, matching =>
    let pred0 := matching.foldl (fun pd p => derase pd p.2)
      (graph.map (fun p => (p.1, (none : Option Nat))))
    let layer0 := pred0.map Prod.fst
    match bfsLoop graph matching ((vset graph).length + 2) ⟨[], pred0, layer0, []⟩ with
    | none => none
    | some st =>
      if st.unmatched = [] then some matching
      else
        let a := st.unmatched.foldl
          (fun (a : AugSt) v => (recurse (a.preds.length + 1) a v).1)
          ⟨st.preds, st.pred, matching⟩
        bmLoop graph fuel a.matching

/-- Embedding of `util._bipartite_match` (src/mir_eval/util.py:405-479).
`none` is returned only on fuel exhaustion, which never happens (proved
below): `(vset graph).length + 2` outer rounds always suffice because every
non-returning round strictly grows the matching. -/
def bipartite_match (graph : List (Nat × List Nat)) : Option (List (Nat × Nat)) :=
  bmLoop graph ((vset graph).length + 2) (greedy graph)

/-- `np.abs` on exact rationals (kernel-computable form of `|q|`). -/
def pyabs (q : ℚ) : ℚ := if q < 0 then -q else q

theorem pyabs_eq_abs (q : ℚ) : pyabs q = |q| := by
  unfold pyabs
  by_cases h : q < 0
  · rw [if_pos h, abs_of_neg h]
  · rw [if_neg h, abs_of_nonneg (not_lt.mp h)]

/-- The compatibility graph of `util.match_events`
(src/mir_eval/util.py:505-513): `hits` enumerates, in row-major order, the
pairs `(ref_i, est_i)` with `|ref[ref_i] - est[est_i]| <= window`, and `G`
maps each `ref_i` to its list of `est_i`s. -/
def buildGraph (ref est : List ℚ) (window : ℚ) : List (Nat × List Nat) :=
  ((List.range ref.length).flatMap (fun i =>
    (List.range est.length).filterMap (fun j =>
      if pyabs (ref.getD i 0 - est.getD j 0) ≤ window then some (i, j) else none))).foldl
    (fun g p => dappend g p.1 p.2) []

/-- Ordered insertion with respect to Python tuple order, the building
block of the (stable) `sorted`. -/
def pinsert (a : Nat × Nat) : List (Nat × Nat) → List (Nat × Nat)
  | [] => [a]
  | b :: t =>
    if a.1 < b.1 ∨ (a.1 = b.1 ∧ a.2 ≤ b.2) then a :: b :: t else b :: pinsert a t

/-- Python `sorted` on a list of pairs (insertion sort; stable, ascending
in tuple order). -/
def pysort (l : List (Nat × Nat)) : List (Nat × Nat) :=
  l.foldr pinsert []

/-- Embedding of `util.match_events` (src/mir_eval/util.py:481-518):
`sorted(_bipartite_match(G).items())`, sorting pairs lexicographically
(Python tuple order).  Since `_bipartite_match` returns the dict `V → U`,
the pairs are `(est_index, ref_index)`. -/
def match_events (ref est : List ℚ) (window : ℚ) : Option (List (Nat × Nat)) :=
  (bipartite_match (buildGraph ref est window)).map (fun m => pysort m)

end MirEval

namespace MirEval

/-- C3 (code bug): with `ref = [0, 100]`, `est = [100]`, `window = 5`, the
only compatible pair is reference index 1 with estimate index 0, yet
`match_events` returns `[(0, 1)]`: the pair is `(est_index, ref_index)`,
not `(ref_index, est_index)` as the docstring (`matching[i] == (i, j)`
where `ref[i]` matches `est[j]`) and the claim state — read as
`(ref_index, est_index)` it would name the out-of-range estimate index 1. -/
theorem match_events_pair_orientation :
    match_events [0, 100] [100] 5 = some [(0, 1)] ∧
      ((0, 1) : Nat × Nat) ≠ (1, 0) ∧ ¬ (1 < ([100] : List ℚ).length) := by
  have hg : buildGraph [0, 100] [100] 5 = [(1, [0])] := by
    norm_num [buildGraph, pyabs, List.range_succ, List.filterMap_cons,
      List.foldl_cons, List.foldl_nil, dappend]
  have h : match_events [0, 100] [100] 5 = some [(0, 1)] := by
    rw [match_events, hg]
    rfl
  exact ⟨h, by simp, by simp⟩

/-- C2 (code bug): with `ref = [0, 100]`, `est = [99, 1000]`, `window = 5`,
`match_events` returns the single pair `(0, 1)`; read as
`(ref_index, est_index)` — the orientation the docstring and the claim
assert — it violates the window constraint, since
`|ref[0] - est[1]| = 1000 > 5` (the pair actually means est index 0 matches
ref index 1). -/
theorem match_events_pair_breaks_window :
    match_events [0, 100] [99, 1000] 5 = some [(0, 1)] ∧
      ¬ (|([0, 100] : List ℚ).getD 0 0 - ([99, 1000] : List ℚ).getD 1 0| ≤ 5) := by
  have hg : buildGraph [0, 100] [99, 1000] 5 = [(1, [0])] := by
    norm_num [buildGraph, pyabs, List.range_succ, List.filterMap_cons,
      List.foldl_cons, List.foldl_nil, dappend]
  have h : match_events [0, 100] [99, 1000] 5 = some [(0, 1)] := by
    rw [match_events, hg]
    rfl
  exact ⟨h, by norm_num⟩

end MirEval

namespace MirEval

/-! ### Dictionary lemmas -/

/-- The keys of an embedded dict, in order. -/
def dkeys {β : Type} (l : List (Nat × β)) : List Nat := l.map Prod.fst

theorem dkeys_nil {β : Type} : dkeys ([] : List (Nat × β)) = [] := rfl

theorem dkeys_cons {β : Type} (p : Nat × β) (l : List (Nat × β)) :
    dkeys (p :: l) = p.1 :: dkeys l := rfl

theorem dlookup_mem {β : Type} {l : List (Nat × β)} {k : Nat} {v : β}
    (h : dlookup l k = some v) : (k, v) ∈ l := by
  induction l with
  | nil => exact Option.noConfusion h
  | cons p t ih =>
    rw [dlookup] at h
    by_cases hk : p.1 = k
    · rw [if_pos hk] at h
      cases h
      exact List.mem_cons.mpr (Or.inl (by rw [← hk]))
    · rw [if_neg hk] at h
      exact List.mem_cons_of_mem _ (ih h)

theorem dlookup_isSome_iff {β : Type} (l : List (Nat × β)) (k : Nat) :
    (dlookup l k).isSome = true ↔ k ∈ dkeys l := by
  induction l with
  | nil => simp [dlookup, dkeys]
  | cons p t ih =>
    rw [dlookup, dkeys_cons]
    by_cases hk : p.1 = k
    · simp [if_pos hk, hk]
    · rw [if_neg hk]
      simp only [List.mem_cons]
      rw [ih]
      constructor
      · exact fun h => Or.inr h
      · rintro (h | h)
        · exact absurd h.symm hk
        · exact h

theorem dlookup_eq_none_iff {β : Type} (l : List (Nat × β)) (k : Nat) :
    dlookup l k = none ↔ k ∉ dkeys l := by
  rw [← dlookup_isSome_iff]
  cases dlookup l k <;> simp

theorem dlookup_of_mem {β : Type} {l : List (Nat × β)} {k : Nat} {v : β}
    (hnd : (dkeys l).Nodup) (h : (k, v) ∈ l) : dlookup l k = some v := by
  induction l with
  | nil => exact absurd h (List.not_mem_nil _)
  | cons p t ih =>
    rw [dkeys_cons, List.nodup_cons] at hnd
    rcases List.mem_cons.mp h with h | h
    · rw [← h, dlookup, if_pos rfl]
    · rw [dlookup]
      have hk : p.1 ≠ k := by
        intro he
        exact hnd.1 (he ▸ (List.mem_map.mpr ⟨(k, v), h, rfl⟩))
      rw [if_neg hk]
      exact ih hnd.2 h

theorem dlookup_dinsert_self {β : Type} (l : List (Nat × β)) (k : Nat) (v : β) :
    dlookup (dinsert l k v) k = some v := by
  induction l with
  | nil => simp [dinsert, dlookup]
  | cons p t ih =>
    rw [dinsert]
    by_cases hk : p.1 = k
    · rw [if_pos hk, dlookup, if_pos rfl]
    · rw [if_neg hk, dlookup, if_neg hk]
      exact ih

theorem dlookup_dinsert_ne {β : Type} (l : List (Nat × β)) (k k' : Nat) (v : β)
    (h : k' ≠ k) : dlookup (dinsert l k v) k' = dlookup l k' := by
  induction l with
  | nil =>
    simp only [dinsert, dlookup]
    rw [if_neg (fun he => h he.symm)]
  | cons p t ih =>
    rw [dinsert]
    by_cases hk : p.1 = k
    · rw [if_pos hk, dlookup, dlookup, hk]
      rw [if_neg (fun he => h he.symm), if_neg (fun he => h he.symm)]
    · rw [if_neg hk, dlookup, dlookup]
      by_cases hk' : p.1 = k'
      · rw [if_pos hk', if_pos hk']
      · rw [if_neg hk', if_neg hk']
        exact ih

theorem mem_dkeys_dinsert {β : Type} (l : List (Nat × β)) (k k' : Nat) (v : β) :
    k' ∈ dkeys (dinsert l k v) ↔ k' ∈ dkeys l ∨ k' = k := by
  induction l with
  | nil => simp [dinsert, dkeys]
  | cons p t ih =>
    rw [dinsert]
    by_cases hk : p.1 = k
    · rw [if_pos hk, dkeys_cons, dkeys_cons]
      simp only [List.mem_cons]
      rw [hk]
      tauto
    · rw [if_neg hk, dkeys_cons, dkeys_cons]
      simp only [List.mem_cons]
      rw [ih]
      tauto

theorem dkeys_dinsert_nodup {β : Type} (l : List (Nat × β)) (k : Nat) (v : β)
    (h : (dkeys l).Nodup) : (dkeys (dinsert l k v)).Nodup := by
  induction l with
  | nil => simp [dinsert, dkeys]
  | cons p t ih =>
    rw [dkeys_cons, List.nodup_cons] at h
    rw [dinsert]
    by_cases hk : p.1 = k
    · rw [if_pos hk, dkeys_cons, List.nodup_cons]
      exact ⟨by rw [← hk]; exact h.1, h.2⟩
    · rw [if_neg hk, dkeys_cons, List.nodup_cons]
      refine ⟨?_, ih h.2⟩
      intro hmem
      rcases (mem_dkeys_dinsert t k p.1 v).mp hmem with hm | hm
      · exact h.1 hm
      · exact hk hm

theorem length_dinsert_mem {β : Type} (l : List (Nat × β)) (k : Nat) (v : β)
    (h : k ∈ dkeys l) : (dinsert l k v).length = l.length := by
  induction l with
  | nil => simp [dkeys] at h
  | cons p t ih =>
    rw [dinsert]
    by_cases hk : p.1 = k
    · rw [if_pos hk]
      simp
    · rw [if_neg hk]
      rw [dkeys_cons, List.mem_cons] at h
      rcases h with h | h
      · exact absurd h.symm hk
      · simp [ih h]

theorem length_dinsert_not_mem {β : Type} (l : List (Nat × β)) (k : Nat) (v : β)
    (h : k ∉ dkeys l) : (dinsert l k v).length = l.length + 1 := by
  induction l with
  | nil => simp [dinsert]
  | cons p t ih =>
    rw [dkeys_cons, List.mem_cons] at h
    push_neg at h
    rw [dinsert, if_neg (fun he => h.1 he.symm)]
    simp [ih h.2]

end MirEval

namespace MirEval

theorem dlookup_derase_self {β : Type} (l : List (Nat × β)) (k : Nat)
    (hnd : (dkeys l).Nodup) : dlookup (derase l k) k = none := by
  induction l with
  | nil => rfl
  | cons p t ih =>
    rw [dkeys_cons, List.nodup_cons] at hnd
    rw [derase]
    by_cases hk : p.1 = k
    · rw [if_pos hk, dlookup_eq_none_iff]
      rw [← hk]
      exact hnd.1
    · rw [if_neg hk, dlookup, if_neg hk]
      exact ih hnd.2

theorem dlookup_derase_ne {β : Type} (l : List (Nat × β)) (k k' : Nat)
    (h : k' ≠ k) : dlookup (derase l k) k' = dlookup l k' := by
  induction l with
  | nil => rfl
  | cons p t ih =>
    rw [derase]
    by_cases hk : p.1 = k
    · rw [if_pos hk, dlookup, if_neg (by rw [hk]; exact fun he => h he.symm)]
    · rw [if_neg hk, dlookup, dlookup]
      by_cases hk' : p.1 = k'
      · rw [if_pos hk', if_pos hk']
      · rw [if_neg hk', if_neg hk']
        exact ih

theorem dlookup_derase_sub {β : Type} (l : List (Nat × β)) (k k' : Nat) (v : β)
    (hnd : (dkeys l).Nodup) (h : dlookup (derase l k) k' = some v) :
    dlookup l k' = some v := by
  by_cases he : k' = k
  · rw [he, dlookup_derase_self l k hnd] at h
    exact Option.noConfusion h
  · rw [dlookup_derase_ne l k k' he] at h
    exact h

theorem mem_dkeys_derase {β : Type} (l : List (Nat × β)) (k k' : Nat)
    (h : k' ∈ dkeys (derase l k)) : k' ∈ dkeys l := by
  induction l with
  | nil => exact absurd h (List.not_mem_nil _)
  | cons p t ih =>
    rw [derase] at h
    by_cases hk : p.1 = k
    · rw [if_pos hk] at h
      exact List.mem_cons_of_mem _ h
    · rw [if_neg hk, dkeys_cons] at h
      rcases List.mem_cons.mp h with h | h
      · rw [dkeys_cons]; exact List.mem_cons.mpr (Or.inl h)
      · exact List.mem_cons_of_mem _ (ih h)

theorem dkeys_derase_nodup {β : Type} (l : List (Nat × β)) (k : Nat)
    (hnd : (dkeys l).Nodup) : (dkeys (derase l k)).Nodup := by
  induction l with
  | nil => exact hnd
  | cons p t ih =>
    rw [dkeys_cons, List.nodup_cons] at hnd
    rw [derase]
    by_cases hk : p.1 = k
    · rw [if_pos hk]
      exact hnd.2
    · rw [if_neg hk, dkeys_cons, List.nodup_cons]
      exact ⟨fun hm => hnd.1 (mem_dkeys_derase t k p.1 hm), ih hnd.2⟩

theorem length_derase_le {β : Type} (l : List (Nat × β)) (k : Nat) :
    (derase l k).length ≤ l.length := by
  induction l with
  | nil => exact Nat.le_refl 0
  | cons p t ih =>
    rw [derase]
    by_cases hk : p.1 = k
    · rw [if_pos hk]
      exact Nat.le_succ_of_le (Nat.le_refl _)
    · rw [if_neg hk]
      simpa using Nat.succ_le_succ ih

theorem dlookup_dappend_self (l : List (Nat × List Nat)) (k u : Nat) :
    dlookup (dappend l k u) k = some ((dlookup l k).getD [] ++ [u]) := by
  induction l with
  | nil => simp [dappend, dlookup]
  | cons p t ih =>
    rw [dappend]
    by_cases hk : p.1 = k
    · rw [if_pos hk, dlookup, if_pos hk, dlookup, if_pos hk]
      rfl
    · rw [if_neg hk, dlookup, if_neg hk, dlookup, if_neg hk]
      exact ih

theorem dlookup_dappend_ne (l : List (Nat × List Nat)) (k k' u : Nat)
    (h : k' ≠ k) : dlookup (dappend l k u) k' = dlookup l k' := by
  induction l with
  | nil =>
    simp only [dappend, dlookup]
    rw [if_neg (fun he => h he.symm)]
  | cons p t ih =>
    rw [dappend]
    by_cases hk : p.1 = k
    · rw [if_pos hk, dlookup, dlookup]
      by_cases hk' : p.1 = k'
      · exact absurd (hk'.symm.trans hk) h
      · rw [if_neg (by rw [hk]; exact fun he => h he.symm), if_neg hk']
    · rw [if_neg hk, dlookup, dlookup]
      by_cases hk' : p.1 = k'
      · rw [if_pos hk', if_pos hk']
      · rw [if_neg hk', if_neg hk']
        exact ih

theorem mem_dkeys_dappend (l : List (Nat × List Nat)) (k k' u : Nat) :
    k' ∈ dkeys (dappend l k u) ↔ k' ∈ dkeys l ∨ k' = k := by
  induction l with
  | nil => simp [dappend, dkeys]
  | cons p t ih =>
    obtain ⟨pk, pv⟩ := p
    rw [dappend]
    by_cases hk : pk = k
    · rw [if_pos hk, dkeys_cons, dkeys_cons]
      simp only [List.mem_cons]
      subst hk
      tauto
    · rw [if_neg hk, dkeys_cons, dkeys_cons]
      simp only [List.mem_cons]
      rw [ih]
      tauto

theorem dkeys_dappend_nodup (l : List (Nat × List Nat)) (k u : Nat)
    (hnd : (dkeys l).Nodup) : (dkeys (dappend l k u)).Nodup := by
  induction l with
  | nil => simp [dappend, dkeys]
  | cons p t ih =>
    rw [dkeys_cons, List.nodup_cons] at hnd
    rw [dappend]
    by_cases hk : p.1 = k
    · rw [if_pos hk, dkeys_cons, List.nodup_cons]
      exact ⟨hnd.1, hnd.2⟩
    · rw [if_neg hk, dkeys_cons, List.nodup_cons]
      refine ⟨?_, ih hnd.2⟩
      intro hm
      rcases (mem_dkeys_dappend t k p.1 u).mp hm with hm | hm
      · exact hnd.1 hm
      · exact hk hm

end MirEval

namespace MirEval

/-! ### Graph-level predicates and the counting argument -/

/-- `(u, v)` is an edge of the bipartite graph: `v` occurs in `graph[u]`. -/
def EdgeG (G : List (Nat × List Nat)) (u v : Nat) : Prop :=
  ∃ L, dlookup G u = some L ∧ v ∈ L

/-- The `V → U` dict `m` is a matching of `G`: keys are unique, every entry
is an edge, and no `u` is used twice. -/
def IsGMatching (G : List (Nat × List Nat)) (m : List (Nat × Nat)) : Prop :=
  (dkeys m).Nodup ∧
    (∀ v u, dlookup m v = some u → EdgeG G u v) ∧
    (∀ v1 v2 u, dlookup m v1 = some u → dlookup m v2 = some u → v1 = v2)

/-- An arbitrary matching of `G`, as a finite set of `(u, v)` edges with
both coordinates used at most once. -/
def IsMatchingOf (G : List (Nat × List Nat)) (P : Finset (Nat × Nat)) : Prop :=
  (∀ p ∈ P, EdgeG G p.1 p.2) ∧
    (∀ p ∈ P, ∀ q ∈ P, p.1 = q.1 → p = q) ∧
    (∀ p ∈ P, ∀ q ∈ P, p.2 = q.2 → p = q)

theorem edgeG_mem_vset (G : List (Nat × List Nat)) (u v : Nat)
    (h : EdgeG G u v) : v ∈ vset G := by
  obtain ⟨L, hL, hv⟩ := h
  rw [vset, List.mem_dedup, List.mem_flatMap]
  exact ⟨(u, L), dlookup_mem hL, hv⟩

theorem edgeG_mem_keys (G : List (Nat × List Nat)) (u v : Nat)
    (h : EdgeG G u v) : u ∈ dkeys G := by
  obtain ⟨L, hL, _⟩ := h
  rw [← dlookup_isSome_iff, hL]
  rfl

/-- The key of the matching entry whose value is `u` (the inverse lookup of
the `V → U` dict). -/
def matchKeyOf (m : List (Nat × Nat)) (u : Nat) : Nat :=
  ((m.find? (fun e => e.2 == u)).getD (0, 0)).1

theorem matchKeyOf_spec (m : List (Nat × Nat)) (u : Nat)
    (hnd : (dkeys m).Nodup) (h : ∃ v, dlookup m v = some u) :
    dlookup m (matchKeyOf m u) = some u := by
  obtain ⟨v, hv⟩ := h
  have hmem : (v, u) ∈ m := dlookup_mem hv
  have hsome : (m.find? (fun e => e.2 == u)).isSome := by
    rw [List.find?_isSome]
    exact ⟨(v, u), hmem, by simp⟩
  obtain ⟨e, he⟩ := Option.isSome_iff_exists.mp hsome
  have heu : e.2 = u := by
    have := List.find?_some he
    simpa using this
  have hemem : e ∈ m := List.mem_of_find?_eq_some he
  have : dlookup m e.1 = some e.2 := dlookup_of_mem hnd (by
    have : (e.1, e.2) = e := rfl
    rw [this]
    exact hemem)
  rw [matchKeyOf, he]
  simpa [heu] using this

/-- The counting argument at the return point: if every `v` layered in
`preds` is matched, and every relevant `u` (free, or matched to a layered
`v`) has all its neighbors layered, then no matching of `G` has more edges
than `m` — each edge of a competing matching is injectively charged either
to its layered `v` endpoint or to the matching key of its (necessarily
matched) `u` endpoint, both keys of `m`. -/
theorem max_of_cover (G : List (Nat × List Nat)) (m : List (Nat × Nat))
    (preds : List (Nat × List Nat))
    (hm : IsGMatching G m)
    (hF2 : ∀ v ∈ dkeys preds, ∃ u, dlookup m v = some u)
    (hF13 : ∀ u, ((u ∈ dkeys G ∧ ¬ ∃ v, dlookup m v = some u) ∨
        (∃ v, v ∈ dkeys preds ∧ dlookup m v = some u)) →
      ∀ w, EdgeG G u w → w ∈ dkeys preds)
    (P : Finset (Nat × Nat)) (hP : IsMatchingOf G P) :
    P.card ≤ m.length := by
  obtain ⟨hnd, _hedal, hinj⟩ := hm
  obtain ⟨hPedge, hPleft, hPright⟩ := hP
  have key : ∀ p ∈ P, p.2 ∉ dkeys preds → ∃ v, dlookup m v = some p.1 := by
    intro p hp hout
    by_contra hun
    exact hout (hF13 p.1 (Or.inl ⟨edgeG_mem_keys G p.1 p.2 (hPedge p hp), hun⟩)
      p.2 (hPedge p hp))
  have hmapsto : ∀ p ∈ P,
      (if p.2 ∈ dkeys preds then p.2 else matchKeyOf m p.1) ∈ (dkeys m).toFinset := by
    intro p hp
    by_cases hin : p.2 ∈ dkeys preds
    · rw [if_pos hin, List.mem_toFinset, ← dlookup_isSome_iff]
      obtain ⟨u, hu⟩ := hF2 p.2 hin
      rw [hu]
      rfl
    · rw [if_neg hin, List.mem_toFinset, ← dlookup_isSome_iff,
        matchKeyOf_spec m p.1 hnd (key p hp hin)]
      rfl
  have hinjOn : Set.InjOn (fun p : Nat × Nat =>
      if p.2 ∈ dkeys preds then p.2 else matchKeyOf m p.1) P := by
    intro p hp q hq hfeq
    simp only at hfeq
    by_cases hpin : p.2 ∈ dkeys preds <;> by_cases hqin : q.2 ∈ dkeys preds
    · rw [if_pos hpin, if_pos hqin] at hfeq
      exact hPright p hp q hq hfeq
    · rw [if_pos hpin, if_neg hqin] at hfeq
      exfalso
      have hq1 := matchKeyOf_spec m q.1 hnd (key q hq hqin)
      rw [← hfeq] at hq1
      have : q.2 ∈ dkeys preds :=
        hF13 q.1 (Or.inr ⟨p.2, hpin, hq1⟩) q.2 (hPedge q hq)
      exact hqin this
    · rw [if_neg hpin, if_pos hqin] at hfeq
      exfalso
      have hp1 := matchKeyOf_spec m p.1 hnd (key p hp hpin)
      rw [hfeq] at hp1
      have : p.2 ∈ dkeys preds :=
        hF13 p.1 (Or.inr ⟨q.2, hqin, hp1⟩) p.2 (hPedge p hp)
      exact hpin this
    · rw [if_neg hpin, if_neg hqin] at hfeq
      have hp1 := matchKeyOf_spec m p.1 hnd (key p hp hpin)
      have hq1 := matchKeyOf_spec m q.1 hnd (key q hq hqin)
      rw [hfeq] at hp1
      rw [hq1] at hp1
      refine hPleft p hp q hq ?_
      injection hp1 with h
      exact h.symm
  have hcard := Finset.card_le_card_of_injOn _ hmapsto hinjOn
  calc P.card ≤ (dkeys m).toFinset.card := hcard
    _ = (dkeys m).length := List.toFinset_card_of_nodup hnd
    _ = m.length := List.length_map _ _

/-! ### `pysort` preserves length and membership -/

theorem length_pinsert (a : Nat × Nat) (l : List (Nat × Nat)) :
    (pinsert a l).length = l.length + 1 := by
  induction l with
  | nil => rfl
  | cons b t ih =>
    rw [pinsert]
    by_cases h : a.1 < b.1 ∨ (a.1 = b.1 ∧ a.2 ≤ b.2)
    · rw [if_pos h]
      rfl
    · rw [if_neg h]
      simp [ih]

theorem length_pysort (l : List (Nat × Nat)) : (pysort l).length = l.length := by
  induction l with
  | nil => rfl
  | cons a t ih =>
    rw [pysort, List.foldr_cons, ← pysort, length_pinsert, ih, List.length_cons]

theorem mem_pinsert (a x : Nat × Nat) (l : List (Nat × Nat)) :
    x ∈ pinsert a l ↔ x = a ∨ x ∈ l := by
  induction l with
  | nil => simp [pinsert]
  | cons b t ih =>
    rw [pinsert]
    by_cases h : a.1 < b.1 ∨ (a.1 = b.1 ∧ a.2 ≤ b.2)
    · rw [if_pos h]
      simp only [List.mem_cons]
    · rw [if_neg h]
      simp only [List.mem_cons]
      rw [ih]
      tauto

theorem mem_pysort (x : Nat × Nat) (l : List (Nat × Nat)) :
    x ∈ pysort l ↔ x ∈ l := by
  induction l with
  | nil => simp [pysort]
  | cons a t ih =>
    rw [pysort, List.foldr_cons, ← pysort, mem_pinsert]
    simp only [List.mem_cons]
    rw [ih]

end MirEval

namespace MirEval

/-! ### The greedy seed is a matching -/

theorem greedy_aux (G : List (Nat × List Nat)) :
    ∀ (rest : List (Nat × List Nat)) (m0 : List (Nat × Nat)),
    (dkeys m0).Nodup →
    (∀ v u, dlookup m0 v = some u → EdgeG G u v) →
    (∀ v1 v2 u, dlookup m0 v1 = some u → dlookup m0 v2 = some u → v1 = v2) →
    (∀ v u, dlookup m0 v = some u → u ∉ dkeys rest) →
    (∀ p ∈ rest, dlookup G p.1 = some p.2) →
    (dkeys rest).Nodup →
    IsGMatching G (rest.foldl (fun matching p =>
      match p.2.find? (fun v => (dlookup matching v).isNone) with
      | some v => dinsert matching v p.1
      | none => matching) m0) := by
  intro rest
  induction rest with
  | nil => exact fun m0 h1 h2 h3 _ _ _ => ⟨h1, h2, h3⟩
  | cons p rest' ih =>
    intro m0 hnd hedge hinj havoid hcoh hndr
    rw [List.foldl_cons]
    rw [dkeys_cons, List.nodup_cons] at hndr
    cases hf : p.2.find? (fun v => (dlookup m0 v).isNone) with
    | none =>
      exact ih m0 hnd hedge hinj
        (fun v u hvu => fun hm => havoid v u hvu (List.mem_cons_of_mem _ hm))
        (fun q hq => hcoh q (List.mem_cons_of_mem _ hq)) hndr.2
    | some v =>
      have hvL : v ∈ p.2 := List.mem_of_find?_eq_some hf
      have hvfresh : v ∉ dkeys m0 := by
        have := List.find?_some hf
        rw [← dlookup_eq_none_iff]
        simpa [Option.isNone_iff_eq_none] using this
      have hGp : dlookup G p.1 = some p.2 := hcoh p (List.mem_cons_self p rest')
      refine ih (dinsert m0 v p.1) (dkeys_dinsert_nodup m0 v p.1 hnd) ?_ ?_ ?_
        (fun q hq => hcoh q (List.mem_cons_of_mem _ hq)) hndr.2
      · intro w u hwu
        by_cases hw : w = v
        · rw [hw, dlookup_dinsert_self] at hwu
          cases hwu
          rw [hw]
          exact ⟨p.2, hGp, hvL⟩
        · rw [dlookup_dinsert_ne m0 v w p.1 hw] at hwu
          exact hedge w u hwu
      · intro v1 v2 u h1 h2
        by_cases hv1 : v1 = v <;> by_cases hv2 : v2 = v
        · rw [hv1, hv2]
        · rw [hv1, dlookup_dinsert_self] at h1
          rw [dlookup_dinsert_ne m0 v v2 p.1 hv2] at h2
          cases h1
          exact absurd (List.mem_cons_self p.1 (dkeys rest'))
            (havoid v2 p.1 h2 : p.1 ∉ dkeys (p :: rest'))
        · rw [hv2, dlookup_dinsert_self] at h2
          rw [dlookup_dinsert_ne m0 v v1 p.1 hv1] at h1
          cases h2
          exact absurd (List.mem_cons_self p.1 (dkeys rest'))
            (havoid v1 p.1 h1 : p.1 ∉ dkeys (p :: rest'))
        · rw [dlookup_dinsert_ne m0 v v1 p.1 hv1] at h1
          rw [dlookup_dinsert_ne m0 v v2 p.1 hv2] at h2
          exact hinj v1 v2 u h1 h2
      · intro w u hwu
        by_cases hw : w = v
        · rw [hw, dlookup_dinsert_self] at hwu
          cases hwu
          exact hndr.1
        · rw [dlookup_dinsert_ne m0 v w p.1 hw] at hwu
          exact fun hm => havoid w u hwu (List.mem_cons_of_mem _ hm)

theorem greedy_isGMatching (G : List (Nat × List Nat))
    (hndG : (dkeys G).Nodup) : IsGMatching G (greedy G) := by
  rw [greedy]
  exact greedy_aux G G [] (List.nodup_nil) (fun v u h => Option.noConfusion h)
    (fun v1 v2 u h _ => Option.noConfusion h) (fun v u h => Option.noConfusion h)
    (fun p hp => dlookup_of_mem hndG (by
      have : (p.1, p.2) = p := rfl
      rw [this]
      exact hp)) hndG

/-! ### The initial `pred` table of a round -/

theorem mapNone_lookup (G : List (Nat × List Nat)) (u : Nat) :
    dlookup (G.map (fun p => (p.1, (none : Option Nat)))) u =
      if u ∈ dkeys G then some none else none := by
  induction G with
  | nil => simp [dlookup, dkeys]
  | cons p t ih =>
    rw [List.map_cons, dlookup, dkeys_cons]
    by_cases hk : p.1 = u
    · rw [if_pos hk, if_pos (List.mem_cons.mpr (Or.inl hk.symm))]
    · rw [if_neg hk, ih]
      by_cases hm : u ∈ dkeys t
      · rw [if_pos hm, if_pos (List.mem_cons.mpr (Or.inr hm))]
      · rw [if_neg hm, if_neg (by
          intro hc
          rcases List.mem_cons.mp hc with h | h
          · exact hk h.symm
          · exact hm h)]

theorem dkeys_mapNone (G : List (Nat × List Nat)) :
    dkeys (G.map (fun p => (p.1, (none : Option Nat)))) = dkeys G := by
  induction G with
  | nil => rfl
  | cons p t ih =>
    rw [List.map_cons, dkeys_cons, dkeys_cons, ih]

theorem foldl_derase_lookup {β : Type} (m : List (Nat × Nat)) :
    ∀ (pd : List (Nat × β)), (dkeys pd).Nodup →
    ∀ u, dlookup (m.foldl (fun pd p => derase pd p.2) pd) u =
      if u ∈ m.map Prod.snd then none else dlookup pd u := by
  induction m with
  | nil =>
    intro pd _ u
    simp
  | cons p t ih =>
    intro pd hnd u
    rw [List.foldl_cons, ih (derase pd p.2) (dkeys_derase_nodup pd p.2 hnd) u,
      List.map_cons]
    by_cases hm : u ∈ t.map Prod.snd
    · rw [if_pos hm, if_pos (List.mem_cons.mpr (Or.inr hm))]
    · rw [if_neg hm]
      by_cases he : u = p.2
      · rw [if_pos (List.mem_cons.mpr (Or.inl he)), he,
          dlookup_derase_self pd p.2 hnd]
      · rw [if_neg (by
          intro hc
          rcases List.mem_cons.mp hc with h | h
          · exact he h
          · exact hm h), dlookup_derase_ne pd p.2 u he]

theorem foldl_derase_nodup {β : Type} (m : List (Nat × Nat)) :
    ∀ (pd : List (Nat × β)), (dkeys pd).Nodup →
    (dkeys (m.foldl (fun pd p => derase pd p.2) pd)).Nodup := by
  induction m with
  | nil => exact fun pd h => h
  | cons p t ih =>
    intro pd hnd
    rw [List.foldl_cons]
    exact ih (derase pd p.2) (dkeys_derase_nodup pd p.2 hnd)

/-- The value-set of the matching dict, via entries. -/
theorem mem_map_snd_iff (m : List (Nat × Nat)) (hnd : (dkeys m).Nodup) (u : Nat) :
    u ∈ m.map Prod.snd ↔ ∃ v, dlookup m v = some u := by
  constructor
  · intro h
    obtain ⟨p, hp, hpu⟩ := List.mem_map.mp h
    refine ⟨p.1, ?_⟩
    rw [← hpu]
    exact dlookup_of_mem hnd (by
      have : (p.1, p.2) = p := rfl
      rw [this]
      exact hp)
  · rintro ⟨v, hv⟩
    exact List.mem_map.mpr ⟨(v, u), dlookup_mem hv, rfl⟩

end MirEval

namespace MirEval

/-! ### What one `newLayer` commit does -/

/-- Characterization of `procNew`: `preds` gains exactly the `newLayer`
entries, `pred` gains `pred[matching[v]] = v` for the matched new `v`s,
the next layer collects those `matching[v]`s, and the unmatched new `v`s
are appended to `unmatched`. -/
theorem procNew_spec (m : List (Nat × Nat))
    (hminj : ∀ v1 v2 u, dlookup m v1 = some u → dlookup m v2 = some u → v1 = v2) :
    ∀ (nl : List (Nat × List Nat)) (st0 : BfsSt),
    (dkeys nl).Nodup →
    (∀ v ∈ dkeys nl, v ∉ dkeys st0.preds) →
    (dkeys st0.preds).Nodup →
    (dkeys st0.pred).Nodup →
    (∀ v ∈ dkeys nl, ∀ u, dlookup m v = some u → u ∉ dkeys st0.pred) →
    (∀ v L, dlookup (procNew m st0 nl).preds v = some L →
        dlookup st0.preds v = some L ∨ dlookup nl v = some L) ∧
    (∀ v L, dlookup st0.preds v = some L → dlookup (procNew m st0 nl).preds v = some L) ∧
    (∀ v L, dlookup nl v = some L → dlookup (procNew m st0 nl).preds v = some L) ∧
    (dkeys (procNew m st0 nl).preds).Nodup ∧
    (∀ u ov, dlookup (procNew m st0 nl).pred u = some ov →
        dlookup st0.pred u = some ov ∨
        ∃ v, ov = some v ∧ dlookup m v = some u ∧ v ∈ dkeys nl) ∧
    (∀ u ov, dlookup st0.pred u = some ov → dlookup (procNew m st0 nl).pred u = some ov) ∧
    (dkeys (procNew m st0 nl).pred).Nodup ∧
    (∀ u ∈ (procNew m st0 nl).layer,
        u ∈ st0.layer ∨ ∃ v, v ∈ dkeys nl ∧ dlookup m v = some u) ∧
    (∀ v u, v ∈ dkeys nl → dlookup m v = some u → u ∈ (procNew m st0 nl).layer) ∧
    (∀ u, u ∈ st0.layer → u ∈ (procNew m st0 nl).layer) ∧
    (∀ v, v ∈ (procNew m st0 nl).unmatched →
        v ∈ st0.unmatched ∨ (v ∈ dkeys nl ∧ dlookup m v = none)) ∧
    (∀ v, v ∈ st0.unmatched → v ∈ (procNew m st0 nl).unmatched) ∧
    (∀ v, v ∈ dkeys nl → dlookup m v = none → v ∈ (procNew m st0 nl).unmatched) ∧
    (∀ v u, v ∈ dkeys nl → dlookup m v = some u →
        dlookup (procNew m st0 nl).pred u = some (some v)) ∧
    (procNew m st0 nl).preds.length = st0.preds.length + nl.length := by
  intro nl
  induction nl with
  | nil =>
    intro st0 _ _ h3 h4 _
    refine ⟨fun v L h => Or.inl h, fun v L h => h, ?_, h3, fun u ov h => Or.inl h,
      fun u ov h => h, h4, fun u h => Or.inl h, ?_, fun u h => h,
      fun v h => Or.inl h, fun v h => h, ?_, ?_, by simp [procNew]⟩
    · intro v L h
      exact Option.noConfusion h
    · intro v u hv
      rw [dkeys_nil] at hv
      exact absurd hv (List.not_mem_nil v)
    · intro v hv
      rw [dkeys_nil] at hv
      exact absurd hv (List.not_mem_nil v)
    · intro v u hv
      rw [dkeys_nil] at hv
      exact absurd hv (List.not_mem_nil v)
  | cons p nl' ih =>
    intro st0 hnd hfresh hndpreds hndpred hpredfresh
    rw [dkeys_cons, List.nodup_cons] at hnd
    have hp1fresh : p.1 ∉ dkeys st0.preds :=
      hfresh p.1 (by rw [dkeys_cons]; exact List.mem_cons_self _ _)
    have hstep : procNew m st0 (p :: nl') =
        procNew m (match dlookup m p.1 with
          | some u => ⟨dinsert st0.preds p.1 p.2,
              dinsert st0.pred u (some p.1), st0.layer ++ [u], st0.unmatched⟩
          | none => ⟨dinsert st0.preds p.1 p.2, st0.pred, st0.layer,
              st0.unmatched ++ [p.1]⟩) nl' := by
      rw [procNew, List.foldl_cons, procNew]
    cases hm : dlookup m p.1 with
    | some u =>
      rw [hm] at hstep
      set st1 : BfsSt := ⟨dinsert st0.preds p.1 p.2,
        dinsert st0.pred u (some p.1), st0.layer ++ [u], st0.unmatched⟩ with hst1
      have hufresh : u ∉ dkeys st0.pred :=
        hpredfresh p.1 (by rw [dkeys_cons]; exact List.mem_cons_self _ _) u hm
      have hih := ih st1 hnd.2
        (by
          intro v hv
          rw [hst1]
          simp only [mem_dkeys_dinsert]
          push_neg
          exact ⟨hfresh v (by rw [dkeys_cons]; exact List.mem_cons_of_mem _ hv),
            fun he => hnd.1 (he ▸ hv)⟩)
        (dkeys_dinsert_nodup _ _ _ hndpreds)
        (dkeys_dinsert_nodup _ _ _ hndpred)
        (by
          intro v hv w hw
          rw [hst1]
          simp only [mem_dkeys_dinsert]
          push_neg
          refine ⟨hpredfresh v (by rw [dkeys_cons]; exact List.mem_cons_of_mem _ hv) w hw, ?_⟩
          intro he
          exact hnd.1 ((hminj v p.1 u (he ▸ hw) hm) ▸ hv))
      obtain ⟨r1, r2, r3, r4, r5, r6, r7, r8, r9, r14, r10, r11, r12, r15, r13⟩ := hih
      rw [← hstep] at r1 r2 r3 r4 r5 r6 r7 r8 r9 r14 r10 r11 r12 r15 r13
      refine ⟨?_, ?_, ?_, r4, ?_, ?_, r7, ?_, ?_, ?_, ?_, ?_, ?_, ?_, ?_⟩
      · intro v L h
        rcases r1 v L h with h | h
        · by_cases hv : v = p.1
          · rw [hv] at h ⊢
            rw [show st1.preds = dinsert st0.preds p.1 p.2 from rfl] at h
            rw [dlookup_dinsert_self] at h
            right
            rw [dlookup, if_pos rfl]
            exact h.symm ▸ rfl
          · rw [show st1.preds = dinsert st0.preds p.1 p.2 from rfl,
              dlookup_dinsert_ne _ _ _ _ hv] at h
            exact Or.inl h
        · right
          rw [dlookup]
          have hv : v ≠ p.1 := by
            intro he
            have := dlookup_isSome_iff nl' v |>.mp (by rw [h]; rfl)
            exact hnd.1 (he ▸ this)
          rw [if_neg (fun he => hv he.symm)]
          exact h
      · intro v L h
        have hv : v ≠ p.1 := fun he => hp1fresh (he ▸
          (dlookup_isSome_iff st0.preds v |>.mp (by rw [h]; rfl)))
        refine r2 v L ?_
        show dlookup (dinsert st0.preds p.1 p.2) v = some L
        rw [dlookup_dinsert_ne _ _ _ _ hv]
        exact h
      · intro v L h
        rw [dlookup] at h
        by_cases hv : p.1 = v
        · rw [if_pos hv] at h
          cases h
          refine r2 v p.2 ?_
          rw [← hv]
          show dlookup (dinsert st0.preds p.1 p.2) p.1 = some p.2
          exact dlookup_dinsert_self _ _ _
        · rw [if_neg hv] at h
          exact r3 v L h
      · intro w ov h
        rcases r5 w ov h with h | h
        · by_cases hw : w = u
          · rw [hw] at h ⊢
            rw [show st1.pred = dinsert st0.pred u (some p.1) from rfl,
              dlookup_dinsert_self] at h
            cases h
            exact Or.inr ⟨p.1, rfl, hm, by rw [dkeys_cons]; exact List.mem_cons_self _ _⟩
          · rw [show st1.pred = dinsert st0.pred u (some p.1) from rfl,
              dlookup_dinsert_ne _ _ _ _ hw] at h
            exact Or.inl h
        · obtain ⟨v, hov, hmv, hvnl⟩ := h
          exact Or.inr ⟨v, hov, hmv, by rw [dkeys_cons]; exact List.mem_cons_of_mem _ hvnl⟩
      · intro w ov h
        have hw : w ≠ u := fun he => hufresh (he ▸
          (dlookup_isSome_iff st0.pred w |>.mp (by rw [h]; rfl)))
        refine r6 w ov ?_
        show dlookup (dinsert st0.pred u (some p.1)) w = some ov
        rw [dlookup_dinsert_ne _ _ _ _ hw]
        exact h
      · intro w hw
        rcases r8 w hw with h | h
        · rcases List.mem_append.mp h with h | h
          · exact Or.inl h
          · rw [List.mem_singleton] at h
            exact Or.inr ⟨p.1, by rw [dkeys_cons]; exact List.mem_cons_self _ _, h ▸ hm⟩
        · obtain ⟨v, hvnl, hmv⟩ := h
          exact Or.inr ⟨v, by rw [dkeys_cons]; exact List.mem_cons_of_mem _ hvnl, hmv⟩
      · intro v w hv hw
        rw [dkeys_cons] at hv
        rcases List.mem_cons.mp hv with hv | hv
        · have hwu : w = u := by
            rw [hv] at hw
            exact Option.some.inj (hw.symm.trans hm)
          rw [hwu]
          exact r14 u (List.mem_append.mpr (Or.inr (List.mem_singleton.mpr rfl)))
        · exact r9 v w hv hw
      · intro w hw
        exact r14 w (List.mem_append.mpr (Or.inl hw))
      · intro v hv
        rcases r10 v hv with h | h
        · exact Or.inl h
        · exact Or.inr ⟨by rw [dkeys_cons]; exact List.mem_cons_of_mem _ h.1, h.2⟩
      · intro v hv
        exact r11 v hv
      · intro v hv hnone
        rw [dkeys_cons] at hv
        rcases List.mem_cons.mp hv with hv | hv
        · rw [hv] at hnone
          rw [hnone] at hm
          exact Option.noConfusion hm
        · exact r12 v hv hnone
      · intro v w hv hw
        rw [dkeys_cons] at hv
        rcases List.mem_cons.mp hv with hv | hv
        · have hwu : w = u := Option.some.inj ((hv ▸ hw).symm.trans hm)
          rw [hwu, hv]
          refine r6 u (some p.1) ?_
          show dlookup (dinsert st0.pred u (some p.1)) u = some (some p.1)
          exact dlookup_dinsert_self _ _ _
        · exact r15 v w hv hw
      · rw [r13]
        show (dinsert st0.preds p.1 p.2).length + nl'.length = st0.preds.length + (p :: nl').length
        rw [length_dinsert_not_mem _ _ _ hp1fresh, List.length_cons]
        omega
    | none =>
      rw [hm] at hstep
      set st1 : BfsSt := ⟨dinsert st0.preds p.1 p.2, st0.pred, st0.layer,
        st0.unmatched ++ [p.1]⟩ with hst1
      have hih := ih st1 hnd.2
        (by
          intro v hv
          rw [hst1]
          simp only [mem_dkeys_dinsert]
          push_neg
          exact ⟨hfresh v (by rw [dkeys_cons]; exact List.mem_cons_of_mem _ hv),
            fun he => hnd.1 (he ▸ hv)⟩)
        (dkeys_dinsert_nodup _ _ _ hndpreds)
        hndpred
        (fun v hv w hw =>
          hpredfresh v (by rw [dkeys_cons]; exact List.mem_cons_of_mem _ hv) w hw)
      obtain ⟨r1, r2, r3, r4, r5, r6, r7, r8, r9, r14, r10, r11, r12, r15, r13⟩ := hih
      rw [← hstep] at r1 r2 r3 r4 r5 r6 r7 r8 r9 r14 r10 r11 r12 r15 r13
      refine ⟨?_, ?_, ?_, r4, ?_, r6, r7, ?_, ?_, ?_, ?_, ?_, ?_, ?_, ?_⟩
      · intro v L h
        rcases r1 v L h with h | h
        · by_cases hv : v = p.1
          · rw [hv] at h ⊢
            rw [show st1.preds = dinsert st0.preds p.1 p.2 from rfl,
              dlookup_dinsert_self] at h
            right
            rw [dlookup, if_pos rfl]
            exact h.symm ▸ rfl
          · rw [show st1.preds = dinsert st0.preds p.1 p.2 from rfl,
              dlookup_dinsert_ne _ _ _ _ hv] at h
            exact Or.inl h
        · right
          rw [dlookup]
          have hv : v ≠ p.1 := by
            intro he
            have := dlookup_isSome_iff nl' v |>.mp (by rw [h]; rfl)
            exact hnd.1 (he ▸ this)
          rw [if_neg (fun he => hv he.symm)]
          exact h
      · intro v L h
        have hv : v ≠ p.1 := fun he => hp1fresh (he ▸
          (dlookup_isSome_iff st0.preds v |>.mp (by rw [h]; rfl)))
        refine r2 v L ?_
        show dlookup (dinsert st0.preds p.1 p.2) v = some L
        rw [dlookup_dinsert_ne _ _ _ _ hv]
        exact h
      · intro v L h
        rw [dlookup] at h
        by_cases hv : p.1 = v
        · rw [if_pos hv] at h
          cases h
          refine r2 v p.2 ?_
          rw [← hv]
          show dlookup (dinsert st0.preds p.1 p.2) p.1 = some p.2
          exact dlookup_dinsert_self _ _ _
        · rw [if_neg hv] at h
          exact r3 v L h
      · intro w ov h
        rcases r5 w ov h with h | h
        · exact Or.inl h
        · obtain ⟨v, hov, hmv, hvnl⟩ := h
          exact Or.inr ⟨v, hov, hmv, by rw [dkeys_cons]; exact List.mem_cons_of_mem _ hvnl⟩
      · intro w hw
        rcases r8 w hw with h | h
        · exact Or.inl h
        · obtain ⟨v, hvnl, hmv⟩ := h
          exact Or.inr ⟨v, by rw [dkeys_cons]; exact List.mem_cons_of_mem _ hvnl, hmv⟩
      · intro v w hv hw
        rw [dkeys_cons] at hv
        rcases List.mem_cons.mp hv with hv | hv
        · rw [hv] at hw
          rw [hw] at hm
          exact Option.noConfusion hm
        · exact r9 v w hv hw
      · intro w hw
        exact r14 w hw
      · intro v hv
        rcases r10 v hv with h | h
        · rcases List.mem_append.mp h with h | h
          · exact Or.inl h
          · rw [List.mem_singleton] at h
            exact Or.inr ⟨by rw [dkeys_cons, h]; exact List.mem_cons_self _ _, h ▸ hm⟩
        · exact Or.inr ⟨by rw [dkeys_cons]; exact List.mem_cons_of_mem _ h.1, h.2⟩
      · intro v hv
        exact r11 v (List.mem_append.mpr (Or.inl hv))
      · intro v hv hnone
        rw [dkeys_cons] at hv
        rcases List.mem_cons.mp hv with hv | hv
        · exact r11 v (List.mem_append.mpr (Or.inr (by rw [List.mem_singleton, hv])))
        · exact r12 v hv hnone
      · intro v w hv hw
        rw [dkeys_cons] at hv
        rcases List.mem_cons.mp hv with hv | hv
        · rw [hv] at hw
          rw [hw] at hm
          exact Option.noConfusion hm
        · exact r15 v w hv hw
      · rw [r13]
        show (dinsert st0.preds p.1 p.2).length + nl'.length = st0.preds.length + (p :: nl').length
        rw [length_dinsert_not_mem _ _ _ hp1fresh, List.length_cons]
        omega

end MirEval

namespace MirEval

/-! ### What one layer scan produces -/

theorem scanInner (G preds : List (Nat × List Nat)) (layer : List Nat)
    (u : Nat) (hu : u ∈ layer) :
    ∀ (A : List Nat) (nl0 : List (Nat × List Nat)),
    (∀ v ∈ A, EdgeG G u v) →
    (dkeys nl0).Nodup →
    (∀ v L, dlookup nl0 v = some L →
      v ∉ dkeys preds ∧ L ≠ [] ∧ ∀ w ∈ L, w ∈ layer ∧ EdgeG G w v) →
    (dkeys (A.foldl (fun nl v =>
        if (dlookup preds v).isSome then nl else dappend nl v u) nl0)).Nodup ∧
    (∀ v L, dlookup (A.foldl (fun nl v =>
        if (dlookup preds v).isSome then nl else dappend nl v u) nl0) v = some L →
      v ∉ dkeys preds ∧ L ≠ [] ∧ ∀ w ∈ L, w ∈ layer ∧ EdgeG G w v) ∧
    (∀ v ∈ A, v ∈ dkeys preds ∨ v ∈ dkeys (A.foldl (fun nl v =>
        if (dlookup preds v).isSome then nl else dappend nl v u) nl0)) ∧
    (∀ v, v ∈ dkeys nl0 → v ∈ dkeys (A.foldl (fun nl v =>
        if (dlookup preds v).isSome then nl else dappend nl v u) nl0)) := by
  intro A
  induction A with
  | nil =>
    intro nl0 _ hnd hvalid
    refine ⟨hnd, hvalid, ?_, fun v h => h⟩
    intro v hv
    exact absurd hv (List.not_mem_nil v)
  | cons v A' ih =>
    intro nl0 hedges hnd hvalid
    rw [List.foldl_cons]
    by_cases hin : (dlookup preds v).isSome
    · rw [if_pos hin]
      obtain ⟨c1, c2, c3, c4⟩ := ih nl0
        (fun w hw => hedges w (List.mem_cons_of_mem _ hw)) hnd hvalid
      refine ⟨c1, c2, ?_, c4⟩
      intro w hw
      rcases List.mem_cons.mp hw with hw | hw
      · rw [hw]
        exact Or.inl ((dlookup_isSome_iff preds v).mp hin)
      · exact c3 w hw
    · rw [if_neg hin]
      have hvout : v ∉ dkeys preds := by
        rw [← dlookup_isSome_iff]
        exact fun h => hin h
      have hvalid1 : ∀ w L, dlookup (dappend nl0 v u) w = some L →
          w ∉ dkeys preds ∧ L ≠ [] ∧ ∀ x ∈ L, x ∈ layer ∧ EdgeG G x w := by
        intro w L hw
        by_cases hwv : w = v
        · subst hwv
          rw [dlookup_dappend_self] at hw
          cases hw
          refine ⟨hvout, by simp, ?_⟩
          intro x hx
          rcases List.mem_append.mp hx with hx | hx
          · cases hl0 : dlookup nl0 w with
            | none => rw [hl0] at hx; exact absurd hx (List.not_mem_nil x)
            | some L0 =>
              rw [hl0] at hx
              exact (hvalid w L0 hl0).2.2 x hx
          · rw [List.mem_singleton] at hx
            rw [hx]
            exact ⟨hu, hedges w (List.mem_cons_self w A')⟩
        · rw [dlookup_dappend_ne _ _ _ _ hwv] at hw
          exact hvalid w L hw
      obtain ⟨c1, c2, c3, c4⟩ := ih (dappend nl0 v u)
        (fun w hw => hedges w (List.mem_cons_of_mem _ hw))
        (dkeys_dappend_nodup nl0 v u hnd) hvalid1
      refine ⟨c1, c2, ?_, ?_⟩
      · intro w hw
        rcases List.mem_cons.mp hw with hw | hw
        · rw [hw]
          exact Or.inr (c4 v ((mem_dkeys_dappend nl0 v v u).mpr (Or.inr rfl)))
        · exact c3 w hw
      · intro w hw
        exact c4 w ((mem_dkeys_dappend nl0 v w u).mpr (Or.inl hw))

theorem scanOuter (G preds : List (Nat × List Nat)) (layer : List Nat) :
    ∀ (lay : List Nat) (nl0 : List (Nat × List Nat)),
    (∀ u ∈ lay, u ∈ layer) →
    (dkeys nl0).Nodup →
    (∀ v L, dlookup nl0 v = some L →
      v ∉ dkeys preds ∧ L ≠ [] ∧ ∀ w ∈ L, w ∈ layer ∧ EdgeG G w v) →
    (dkeys (lay.foldl (fun nl u =>
      ((dlookup G u).getD []).foldl (fun nl v =>
        if (dlookup preds v).isSome then nl else dappend nl v u) nl) nl0)).Nodup ∧
    (∀ v L, dlookup (lay.foldl (fun nl u =>
      ((dlookup G u).getD []).foldl (fun nl v =>
        if (dlookup preds v).isSome then nl else dappend nl v u) nl) nl0) v = some L →
      v ∉ dkeys preds ∧ L ≠ [] ∧ ∀ w ∈ L, w ∈ layer ∧ EdgeG G w v) ∧
    (∀ u ∈ lay, ∀ v, EdgeG G u v → v ∈ dkeys preds ∨ v ∈ dkeys (lay.foldl (fun nl u =>
      ((dlookup G u).getD []).foldl (fun nl v =>
        if (dlookup preds v).isSome then nl else dappend nl v u) nl) nl0)) ∧
    (∀ v, v ∈ dkeys nl0 → v ∈ dkeys (lay.foldl (fun nl u =>
      ((dlookup G u).getD []).foldl (fun nl v =>
        if (dlookup preds v).isSome then nl else dappend nl v u) nl) nl0)) := by
  intro lay
  induction lay with
  | nil =>
    intro nl0 _ hnd hvalid
    refine ⟨hnd, hvalid, ?_, fun v h => h⟩
    intro u hu
    exact absurd hu (List.not_mem_nil u)
  | cons u lay' ih =>
    intro nl0 hsub hnd hvalid
    rw [List.foldl_cons]
    have huin : u ∈ layer := hsub u (List.mem_cons_self u lay')
    have hedges : ∀ v ∈ (dlookup G u).getD [], EdgeG G u v := by
      cases hGu : dlookup G u with
      | none => intro v hv; simp at hv
      | some L =>
        intro v hv
        exact ⟨L, hGu, by simpa using hv⟩
    obtain ⟨i1, i2, i3, i4⟩ := scanInner G preds layer u huin ((dlookup G u).getD []) nl0
      hedges hnd hvalid
    obtain ⟨c1, c2, c3, c4⟩ := ih _ (fun w hw => hsub w (List.mem_cons_of_mem _ hw)) i1 i2
    refine ⟨c1, c2, ?_, ?_⟩
    · intro w hw v hv
      rcases List.mem_cons.mp hw with hw | hw
      · obtain ⟨L, hL, hvL⟩ := hv
        have hvA : v ∈ (dlookup G w).getD [] := by
          rw [hL]
          simpa using hvL
        rcases i3 v (by rw [← hw]; exact hvA) with h | h
        · exact Or.inl h
        · exact Or.inr (c4 v h)
      · exact c3 w hw v hv
    · intro v hv
      exact c4 v (i4 v hv)

theorem scanLayer_spec (G preds : List (Nat × List Nat)) (layer : List Nat) :
    (dkeys (scanLayer G preds layer)).Nodup ∧
    (∀ v L, dlookup (scanLayer G preds layer) v = some L →
      v ∉ dkeys preds ∧ L ≠ [] ∧ ∀ w ∈ L, w ∈ layer ∧ EdgeG G w v) ∧
    (∀ u ∈ layer, ∀ v, EdgeG G u v →
      v ∈ dkeys preds ∨ v ∈ dkeys (scanLayer G preds layer)) := by
  obtain ⟨c1, c2, c3, _⟩ := scanOuter G preds layer layer [] (fun u h => h)
    List.nodup_nil (fun v L h => Option.noConfusion h)
  exact ⟨c1, c2, c3⟩

end MirEval

namespace MirEval

/-! ### The layering invariant -/

/-- Invariant of the layering loop of `_bipartite_match`, for a fixed graph
`G` and matching `m`. -/
structure BfsInv (G : List (Nat × List Nat)) (m : List (Nat × Nat)) (st : BfsSt) : Prop where
  ndPreds : (dkeys st.preds).Nodup
  ndPred : (dkeys st.pred).Nodup
  predsVset : ∀ v ∈ dkeys st.preds, v ∈ vset G
  cl : ∀ v L, dlookup st.preds v = some L → L ≠ [] ∧ ∀ u ∈ L, EdgeG G u v ∧
    ∃ ov, dlookup st.pred u = some ov ∧
      (ov = none ∨ ∃ v', ov = some v' ∧ v' ∈ dkeys st.preds)
  j : ∀ u v', dlookup st.pred u = some (some v') →
    dlookup m v' = some u ∧ v' ∈ dkeys st.preds
  flagFree : ∀ u, dlookup st.pred u = some none →
    (¬ ∃ v, dlookup m v = some u) ∧ u ∈ dkeys G
  layerGood : ∀ u ∈ st.layer, ∃ ov, dlookup st.pred u = some ov ∧
    (ov = none ∨ ∃ v', ov = some v' ∧ v' ∈ dkeys st.preds)
  umGood : ∀ v ∈ st.unmatched, v ∈ dkeys st.preds ∧ dlookup m v = none
  f2 : ∀ v ∈ dkeys st.preds, (∃ u, dlookup m v = some u) ∨ v ∈ st.unmatched
  closure : ∀ u, ((u ∈ dkeys G ∧ ¬ ∃ v, dlookup m v = some u) ∨
      (∃ v, v ∈ dkeys st.preds ∧ dlookup m v = some u)) →
    u ∈ st.layer ∨ ∀ w, EdgeG G u w → w ∈ dkeys st.preds
  ranks : ∃ (k : Nat) (rU rV : Nat → Nat), k ≤ st.preds.length ∧
    (∀ v L, dlookup st.preds v = some L → rV v ≤ k ∧ ∀ u ∈ L, rU u < rV v) ∧
    (∀ u v', dlookup st.pred u = some (some v') → rV v' ≤ rU u) ∧
    (∀ u ∈ st.layer, rU u = k)

/-- A successful lookup means the key is present. -/
theorem dlookup_mem_keys {β : Type} {l : List (Nat × β)} {k : Nat} {v : β}
    (h : dlookup l k = some v) : k ∈ dkeys l :=
  (dlookup_isSome_iff l k).mp (by rw [h]; rfl)

/-- One non-exiting iteration of the layering loop preserves the invariant
(and grows `preds` by exactly the new layer). -/
theorem bfs_step (G : List (Nat × List Nat)) (m : List (Nat × Nat))
    (hm : IsGMatching G m) (st : BfsSt) (inv : BfsInv G m st)
    (hum : st.unmatched = []) :
    BfsInv G m (procNew m { st with layer := [] } (scanLayer G st.preds st.layer)) ∧
    (procNew m { st with layer := [] } (scanLayer G st.preds st.layer)).preds.length =
      st.preds.length + (scanLayer G st.preds st.layer).length := by
  obtain ⟨hndm, hmedges, hminj⟩ := hm
  obtain ⟨s1, s2, s3⟩ := scanLayer_spec G st.preds st.layer
  set nl := scanLayer G st.preds st.layer with hnldef
  have hfresh : ∀ v ∈ dkeys nl, v ∉ dkeys st.preds := by
    intro v hv
    obtain ⟨L, hL⟩ := Option.isSome_iff_exists.mp ((dlookup_isSome_iff nl v).mpr hv)
    exact (s2 v L hL).1
  have hpredfresh : ∀ v ∈ dkeys nl, ∀ u, dlookup m v = some u → u ∉ dkeys st.pred := by
    intro v hv u hmv hu
    obtain ⟨ov, hov⟩ := Option.isSome_iff_exists.mp ((dlookup_isSome_iff st.pred u).mpr hu)
    cases ov with
    | none => exact (inv.flagFree u hov).1 ⟨v, hmv⟩
    | some v' =>
      obtain ⟨hmv', hv'⟩ := inv.j u v' hov
      rw [hminj v' v u hmv' hmv] at hv'
      exact hfresh v hv hv'
  obtain ⟨r1, r2, r3, r4, r5, r6, r7, r8, r9, r14, r10, r11, r12, r15, r13⟩ :=
    procNew_spec m hminj nl { st with layer := [] } s1 hfresh inv.ndPreds inv.ndPred hpredfresh
  set st1 := procNew m { st with layer := [] } nl with hst1def
  have hooldkeys : ∀ v, v ∈ dkeys st.preds → v ∈ dkeys st1.preds := by
    intro v hv
    obtain ⟨L, hL⟩ := Option.isSome_iff_exists.mp ((dlookup_isSome_iff st.preds v).mpr hv)
    exact dlookup_mem_keys (r2 v L hL)
  have hnlkeys : ∀ v, v ∈ dkeys nl → v ∈ dkeys st1.preds := by
    intro v hv
    obtain ⟨L, hL⟩ := Option.isSome_iff_exists.mp ((dlookup_isSome_iff nl v).mpr hv)
    exact dlookup_mem_keys (r3 v L hL)
  have hlayermem : ∀ u ∈ st1.layer, ∃ v, v ∈ dkeys nl ∧ dlookup m v = some u := by
    intro u hu
    rcases r8 u hu with h | h
    · exact absurd h (List.not_mem_nil u)
    · exact h
  have hnewkey : ∀ v, v ∈ dkeys st1.preds → v ∈ dkeys st.preds ∨ v ∈ dkeys nl := by
    intro v hv
    obtain ⟨L, hL⟩ := Option.isSome_iff_exists.mp ((dlookup_isSome_iff _ v).mpr hv)
    rcases r1 v L hL with h | h
    · exact Or.inl (dlookup_mem_keys h)
    · exact Or.inr (dlookup_mem_keys h)
  refine ⟨⟨r4, r7, ?_, ?_, ?_, ?_, ?_, ?_, ?_, ?_, ?_⟩, r13⟩
  · -- predsVset
    intro v hv
    rcases hnewkey v hv with h | h
    · exact inv.predsVset v h
    · obtain ⟨L, hL⟩ := Option.isSome_iff_exists.mp ((dlookup_isSome_iff nl v).mpr h)
      obtain ⟨hne, hall⟩ := (s2 v L hL).2
      cases L with
      | nil => exact absurd rfl hne
      | cons w L' => exact edgeG_mem_vset G w v (hall w (List.mem_cons_self w L')).2
  · -- cl
    intro v L hL
    rcases r1 v L hL with h | h
    · obtain ⟨hne, hall⟩ := inv.cl v L h
      refine ⟨hne, ?_⟩
      intro u hu
      obtain ⟨hedge, ov, hov, hgood⟩ := hall u hu
      refine ⟨hedge, ov, r6 u ov hov, ?_⟩
      rcases hgood with h' | ⟨v', hv', hv'mem⟩
      · exact Or.inl h'
      · exact Or.inr ⟨v', hv', hooldkeys v' hv'mem⟩
    · obtain ⟨hout, hne, hall⟩ := s2 v L h
      refine ⟨hne, ?_⟩
      intro u hu
      obtain ⟨hulayer, hedge⟩ := hall u hu
      obtain ⟨ov, hov, hgood⟩ := inv.layerGood u hulayer
      refine ⟨hedge, ov, r6 u ov hov, ?_⟩
      rcases hgood with h' | ⟨v', hv', hv'mem⟩
      · exact Or.inl h'
      · exact Or.inr ⟨v', hv', hooldkeys v' hv'mem⟩
  · -- j
    intro u v' hu
    rcases r5 u _ hu with h | ⟨v, hov, hmv, hvnl⟩
    · obtain ⟨hmv', hv'⟩ := inv.j u v' h
      exact ⟨hmv', hooldkeys v' hv'⟩
    · have hvv : v' = v := Option.some.inj hov
      rw [hvv]
      exact ⟨hmv, hnlkeys v hvnl⟩
  · -- flagFree
    intro u hu
    rcases r5 u _ hu with h | ⟨v, hov, _, _⟩
    · exact inv.flagFree u h
    · exact Option.noConfusion hov
  · -- layerGood
    intro u hu
    obtain ⟨v, hvnl, hmv⟩ := hlayermem u hu
    exact ⟨some v, r15 v u hvnl hmv, Or.inr ⟨v, rfl, hnlkeys v hvnl⟩⟩
  · -- umGood
    intro v hv
    rcases r10 v hv with h | h
    · rw [show ({ st with layer := [] } : BfsSt).unmatched = st.unmatched from rfl, hum] at h
      exact absurd h (List.not_mem_nil v)
    · exact ⟨hnlkeys v h.1, h.2⟩
  · -- f2
    intro v hv
    rcases hnewkey v hv with h | h
    · rcases inv.f2 v h with h' | h'
      · exact Or.inl h'
      · rw [hum] at h'
        exact absurd h' (List.not_mem_nil v)
    · cases hmv : dlookup m v with
      | some u => exact Or.inl ⟨u, rfl⟩
      | none => exact Or.inr (r12 v h hmv)
  · -- closure
    intro u hrel
    have fromLayer : u ∈ st.layer → ∀ w, EdgeG G u w → w ∈ dkeys st1.preds := by
      intro hul w hw
      rcases s3 u hul w hw with h | h
      · exact hooldkeys w h
      · exact hnlkeys w h
    rcases hrel with ⟨huG, hun⟩ | ⟨v, hvkeys, hmv⟩
    · rcases inv.closure u (Or.inl ⟨huG, hun⟩) with h | h
      · exact Or.inr (fromLayer h)
      · exact Or.inr (fun w hw => hooldkeys w (h w hw))
    · rcases hnewkey v hvkeys with h | h
      · rcases inv.closure u (Or.inr ⟨v, h, hmv⟩) with h' | h'
        · exact Or.inr (fromLayer h')
        · exact Or.inr (fun w hw => hooldkeys w (h' w hw))
      · exact Or.inl (r9 v u h hmv)
  · -- ranks
    obtain ⟨k, rU, rV, hk, hpredsrk, hpredrk, hlayerrk⟩ := inv.ranks
    by_cases hnil : nl = []
    · have hid : st1 = { st with layer := [] } := by
        rw [hst1def, hnil]
        rfl
      rw [hid]
      refine ⟨k, rU, rV, hk, hpredsrk, hpredrk, ?_⟩
      intro u hu
      exact absurd hu (List.not_mem_nil u)
    · have hlayfresh : ∀ u ∈ st1.layer, u ∉ dkeys st.pred := by
        intro u hu
        obtain ⟨v, hvnl, hmv⟩ := hlayermem u hu
        exact hpredfresh v hvnl u hmv
      refine ⟨k + 1, fun u => if u ∈ st1.layer then k + 1 else rU u,
        fun v => if v ∈ dkeys nl then k + 1 else rV v, ?_, ?_, ?_, ?_⟩
      · have r13' : st1.preds.length = st.preds.length + nl.length := r13
        rw [r13']
        have h1 : 1 ≤ nl.length := List.length_pos.mpr hnil
        omega
      · dsimp only
        intro v L hL
        rcases r1 v L hL with h | h
        · have hvnotnl : v ∉ dkeys nl := fun hc => hfresh v hc (dlookup_mem_keys h)
          obtain ⟨hrk, hel⟩ := hpredsrk v L h
          rw [if_neg hvnotnl]
          refine ⟨Nat.le_succ_of_le hrk, ?_⟩
          intro u hu
          obtain ⟨_, ov, hov, _⟩ := (inv.cl v L h).2 u hu
          have hul : u ∉ st1.layer := fun hc => hlayfresh u hc (dlookup_mem_keys hov)
          rw [if_neg hul]
          exact hel u hu
        · have hvnl : v ∈ dkeys nl := dlookup_mem_keys h
          rw [if_pos hvnl]
          refine ⟨Nat.le_refl _, ?_⟩
          intro u hu
          obtain ⟨hulayer, _⟩ := (s2 v L h).2.2 u hu
          obtain ⟨ov, hov, _⟩ := inv.layerGood u hulayer
          have hul : u ∉ st1.layer := fun hc => hlayfresh u hc (dlookup_mem_keys hov)
          rw [if_neg hul, hlayerrk u hulayer]
          exact Nat.lt_succ_self k
      · dsimp only
        intro u v' h
        rcases r5 u _ h with h' | ⟨v, hov, hmv, hvnl⟩
        · obtain ⟨_, hv'⟩ := inv.j u v' h'
          have hv'notnl : v' ∉ dkeys nl := fun hc => hfresh v' hc hv'
          have hul : u ∉ st1.layer := fun hc => hlayfresh u hc (dlookup_mem_keys h')
          rw [if_neg hv'notnl, if_neg hul]
          exact hpredrk u v' h'
        · have hvv : v' = v := Option.some.inj hov
          subst hvv
          have hul : u ∈ st1.layer := r9 v' u hvnl hmv
          rw [if_pos hvnl, if_pos hul]
      · dsimp only
        intro u hu
        rw [if_pos hu]

end MirEval

namespace MirEval

/-! ### The layering loop: postcondition and fuel sufficiency -/

theorem nodup_subset_length_le {l l' : List Nat} (hnd : l.Nodup)
    (hsub : ∀ x ∈ l, x ∈ l') : l.length ≤ l'.length := by
  calc l.length = l.toFinset.card := (List.toFinset_card_of_nodup hnd).symm
    _ ≤ l'.toFinset.card := Finset.card_le_card (fun x hx =>
        List.mem_toFinset.mpr (hsub x (List.mem_toFinset.mp hx)))
    _ ≤ l'.length := List.toFinset_card_le l'

theorem bfsInv_preds_le (G : List (Nat × List Nat)) (m : List (Nat × Nat))
    (st : BfsSt) (inv : BfsInv G m st) : st.preds.length ≤ (vset G).length := by
  have : (dkeys st.preds).length ≤ (vset G).length :=
    nodup_subset_length_le inv.ndPreds inv.predsVset
  rw [dkeys, List.length_map] at this
  exact this

theorem bfsLoop_post (G : List (Nat × List Nat)) (m : List (Nat × Nat))
    (hm : IsGMatching G m) :
    ∀ (fuel : Nat) (st res : BfsSt), BfsInv G m st →
    bfsLoop G m fuel st = some res →
    BfsInv G m res ∧ (res.layer = [] ∨ res.unmatched ≠ []) := by
  intro fuel
  induction fuel with
  | zero => intro st res _ h; exact Option.noConfusion h
  | succ fuel ih =>
    intro st res hinv h
    rw [bfsLoop] at h
    by_cases hexit : st.layer = [] ∨ st.unmatched ≠ []
    · rw [if_pos hexit] at h
      cases h
      exact ⟨hinv, hexit⟩
    · rw [if_neg hexit] at h
      push_neg at hexit
      exact ih _ res (bfs_step G m hm st hinv hexit.2).1 h

theorem bfsLoop_some (G : List (Nat × List Nat)) (m : List (Nat × Nat))
    (hm : IsGMatching G m) :
    ∀ (fuel : Nat) (st : BfsSt), BfsInv G m st →
    (vset G).length + 2 ≤ fuel + st.preds.length →
    ∃ res, bfsLoop G m fuel st = some res := by
  intro fuel
  induction fuel with
  | zero =>
    intro st hinv hle
    have := bfsInv_preds_le G m st hinv
    omega
  | succ fuel ih =>
    intro st hinv hle
    rw [bfsLoop]
    by_cases hexit : st.layer = [] ∨ st.unmatched ≠ []
    · rw [if_pos hexit]
      exact ⟨st, rfl⟩
    · rw [if_neg hexit]
      push_neg at hexit
      have hum : st.unmatched = [] := hexit.2
      obtain ⟨hinv1, hlen⟩ := bfs_step G m hm st hinv hum
      show ∃ res,
        bfsLoop G m fuel (procNew m { st with layer := [] }
          (scanLayer G st.preds st.layer)) = some res
      by_cases hnil : scanLayer G st.preds st.layer = []
      · have hid : procNew m { st with layer := [] } (scanLayer G st.preds st.layer) =
            { st with layer := [] } := by
          rw [hnil]
          rfl
        have hfuelpos : 1 ≤ fuel := by
          have := bfsInv_preds_le G m st hinv
          omega
        obtain ⟨fuel', rfl⟩ : ∃ f, fuel = f + 1 := ⟨fuel - 1, by omega⟩
        refine ⟨{ st with layer := [] }, ?_⟩
        rw [hid, bfsLoop]
        rw [if_pos (Or.inl rfl)]
      · refine ih _ hinv1 ?_
        rw [hlen]
        have h1 : 1 ≤ (scanLayer G st.preds st.layer).length := List.length_pos.mpr hnil
        omega

/-! ### The invariant at the start of a round -/

theorem pred0_char (G : List (Nat × List Nat)) (m : List (Nat × Nat))
    (hndG : (dkeys G).Nodup) (u : Nat) :
    dlookup (m.foldl (fun pd p => derase pd p.2)
        (G.map (fun p => (p.1, (none : Option Nat))))) u =
      if u ∈ dkeys G ∧ u ∉ m.map Prod.snd then some none else none := by
  rw [foldl_derase_lookup m _ (by rw [dkeys_mapNone]; exact hndG), mapNone_lookup]
  by_cases h1 : u ∈ m.map Prod.snd
  · rw [if_pos h1, if_neg (by tauto)]
  · rw [if_neg h1]
    by_cases h2 : u ∈ dkeys G
    · rw [if_pos h2, if_pos ⟨h2, h1⟩]
    · rw [if_neg h2, if_neg (by tauto)]

theorem bfsInit (G : List (Nat × List Nat)) (m : List (Nat × Nat))
    (hndG : (dkeys G).Nodup) (hm : IsGMatching G m) :
    BfsInv G m ⟨[],
      m.foldl (fun pd p => derase pd p.2) (G.map (fun p => (p.1, (none : Option Nat)))),
      (m.foldl (fun pd p => derase pd p.2)
        (G.map (fun p => (p.1, (none : Option Nat))))).map Prod.fst, []⟩ := by
  obtain ⟨hndm, hmedges, hminj⟩ := hm
  set pred0 := m.foldl (fun pd p => derase pd p.2)
    (G.map (fun p => (p.1, (none : Option Nat)))) with hpred0
  have hchar := pred0_char G m hndG
  have honlynone : ∀ u ov, dlookup pred0 u = some ov → ov = none := by
    intro u ov h
    rw [hchar u] at h
    by_cases hc : u ∈ dkeys G ∧ u ∉ m.map Prod.snd
    · rw [if_pos hc] at h
      exact (Option.some.inj h).symm
    · rw [if_neg hc] at h
      exact Option.noConfusion h
  refine ⟨List.nodup_nil, ?_, ?_, ?_, ?_, ?_, ?_, ?_, ?_, ?_, ?_⟩
  · exact foldl_derase_nodup m _ (by rw [dkeys_mapNone]; exact hndG)
  · intro v hv
    exact absurd hv (List.not_mem_nil v)
  · intro v L h
    exact Option.noConfusion h
  · intro u v' h
    exact absurd (honlynone u (some v') h) (Option.noConfusion)
  · intro u h
    rw [hchar u] at h
    by_cases hc : u ∈ dkeys G ∧ u ∉ m.map Prod.snd
    · refine ⟨fun hex => hc.2 ((mem_map_snd_iff m hndm u).mpr hex), hc.1⟩
    · rw [if_neg hc] at h
      exact Option.noConfusion h
  · intro u hu
    obtain ⟨ov, hov⟩ := Option.isSome_iff_exists.mp ((dlookup_isSome_iff pred0 u).mpr hu)
    refine ⟨ov, hov, Or.inl (honlynone u ov hov)⟩
  · intro v hv
    exact absurd hv (List.not_mem_nil v)
  · intro v hv
    exact absurd hv (List.not_mem_nil v)
  · intro u hrel
    rcases hrel with ⟨huG, hun⟩ | ⟨v, hv, _⟩
    · left
      show u ∈ dkeys pred0
      rw [← dlookup_isSome_iff, hchar u,
        if_pos ⟨huG, fun hmem => hun ((mem_map_snd_iff m hndm u).mp hmem)⟩]
      rfl
    · exact absurd hv (List.not_mem_nil v)
  · refine ⟨0, fun _ => 0, fun _ => 0, Nat.le_refl 0, ?_, ?_, ?_⟩
    · intro v L h
      exact Option.noConfusion h
    · intro u v' h
      exact absurd (honlynone u (some v') h) (Option.noConfusion)
    · intro u _
      rfl

end MirEval

namespace MirEval

/-! ### The augmentation phase: state invariant -/

/-- Invariant tying an augmentation state to the graph: key sets stay
duplicate-free, the matching stays a matching of `G`, every surviving
`preds` entry lists genuine neighbors, a surviving `pred[u] = v'` pointer
still agrees with the matching, and a surviving `pred[u] = unmatched` flag
still marks an unused `u`. -/
structure StInv (G : List (Nat × List Nat)) (a : AugSt) : Prop where
  ndPreds : (dkeys a.preds).Nodup
  ndPred : (dkeys a.pred).Nodup
  gm : IsGMatching G a.matching
  edges : ∀ v L, dlookup a.preds v = some L → ∀ u ∈ L, EdgeG G u v
  jm : ∀ u v', dlookup a.pred u = some (some v') → dlookup a.matching v' = some u
  free : ∀ u, dlookup a.pred u = some none →
    ∀ v0, dlookup a.matching v0 = some u → False

theorem stInv_derase_pred (G : List (Nat × List Nat)) (a : AugSt) (u : Nat)
    (h : StInv G a) : StInv G { a with pred := derase a.pred u } := by
  refine ⟨h.ndPreds, dkeys_derase_nodup _ _ h.ndPred, h.gm, h.edges, ?_, ?_⟩
  · intro u0 v' h0
    exact h.jm u0 v' (dlookup_derase_sub _ _ _ _ h.ndPred h0)
  · intro u0 h0
    exact h.free u0 (dlookup_derase_sub _ _ _ _ h.ndPred h0)

theorem stInv_derase_preds (G : List (Nat × List Nat)) (a : AugSt) (v : Nat)
    (h : StInv G a) : StInv G { a with preds := derase a.preds v } := by
  refine ⟨dkeys_derase_nodup _ _ h.ndPreds, h.ndPred, h.gm, ?_, h.jm, h.free⟩
  intro v0 L h0
  exact h.edges v0 L (dlookup_derase_sub _ _ _ _ h.ndPreds h0)

/-- Inserting `matching[v] = u` preserves the invariant provided `(u, v)`
is an edge, `u` is not currently used by the matching, no surviving `pred`
pointer targets `v`, and `u`'s own `pred` entry has been deleted. -/
theorem stInv_insert (G : List (Nat × List Nat)) (a : AugSt) (v u : Nat)
    (h : StInv G a)
    (hedge : EdgeG G u v)
    (hufree : ∀ v0, dlookup a.matching v0 = some u → False)
    (hnoptr : ∀ u0, dlookup a.pred u0 = some (some v) → False)
    (hupred : dlookup a.pred u = none) :
    StInv G { a with matching := dinsert a.matching v u } := by
  obtain ⟨hnd, hed, hinj⟩ := h.gm
  refine ⟨h.ndPreds, h.ndPred, ⟨dkeys_dinsert_nodup _ _ _ hnd, ?_, ?_⟩,
    h.edges, ?_, ?_⟩
  · intro v0 u0 h0
    by_cases hv : v0 = v
    · rw [hv, dlookup_dinsert_self] at h0
      rw [hv, ← Option.some.inj h0]
      exact hedge
    · rw [dlookup_dinsert_ne _ _ _ _ hv] at h0
      exact hed v0 u0 h0
  · intro v1 v2 u0 h1 h2
    by_cases hv1 : v1 = v
    · by_cases hv2 : v2 = v
      · rw [hv1, hv2]
      · rw [hv1, dlookup_dinsert_self] at h1
        rw [dlookup_dinsert_ne _ _ _ _ hv2] at h2
        rw [← Option.some.inj h1] at h2
        exact absurd h2 (fun hh => hufree v2 hh)
    · rw [dlookup_dinsert_ne _ _ _ _ hv1] at h1
      by_cases hv2 : v2 = v
      · rw [hv2, dlookup_dinsert_self] at h2
        rw [← Option.some.inj h2] at h1
        exact absurd h1 (fun hh => hufree v1 hh)
      · rw [dlookup_dinsert_ne _ _ _ _ hv2] at h2
        exact hinj v1 v2 u0 h1 h2
  · intro u0 v' h0
    by_cases hv : v' = v
    · rw [hv] at h0
      exact absurd h0 (fun hh => hnoptr u0 hh)
    · rw [dlookup_dinsert_ne _ _ _ _ hv]
      exact h.jm u0 v' h0
  · intro u0 h0 v0 hm0
    by_cases hv : v0 = v
    · rw [hv, dlookup_dinsert_self] at hm0
      rw [← Option.some.inj hm0] at h0
      rw [hupred] at h0
      exact Option.noConfusion h0
    · rw [dlookup_dinsert_ne _ _ _ _ hv] at hm0
      exact h.free u0 h0 v0 hm0

/-- Contract of one call of the augmenting search started at `v` from
state `a`: the invariant survives; `preds` and `pred` only lose entries;
matching keys only grow, and the only possibly-new key is `v`; every new
matching entry takes its value from a popped `pred` key; a failed call
leaves the matching untouched, and a successful one rebinds `v` to a
popped `pred` key and grows the matching by one exactly when `v` was
unmatched. -/
structure RecOut (G : List (Nat × List Nat)) (a : AugSt) (v : Nat)
    (r : AugSt × Bool) : Prop where
  inv : StInv G r.1
  predsSub : ∀ v0 L, dlookup r.1.preds v0 = some L → dlookup a.preds v0 = some L
  predSub : ∀ u0 ov, dlookup r.1.pred u0 = some ov → dlookup a.pred u0 = some ov
  keysMono : ∀ v0, v0 ∈ dkeys a.matching → v0 ∈ dkeys r.1.matching
  keysSub : ∀ v0, v0 ∈ dkeys r.1.matching → v0 ∈ dkeys a.matching ∨ v0 = v
  entries : ∀ v0 u0, dlookup r.1.matching v0 = some u0 →
    dlookup a.matching v0 = some u0 ∨ u0 ∈ dkeys a.pred
  fEq : r.2 = false → r.1.matching = a.matching
  tEq : r.2 = true → (∃ u', dlookup r.1.matching v = some u' ∧ u' ∈ dkeys a.pred) ∧
    r.1.matching.length = a.matching.length +
      (if v ∈ dkeys a.matching then 0 else 1)

end MirEval

namespace MirEval

/-- The `for u in L` loop of `recurse` honors the `RecOut` contract,
provided the recursive call does. -/
theorem recgo_out (G : List (Nat × List Nat)) (rec_ : AugSt → Nat → AugSt × Bool)
    (hrec : ∀ a v', StInv G a →
      (∀ u0, dlookup a.pred u0 = some (some v') → False) →
      RecOut G a v' (rec_ a v')) :
    ∀ (L : List Nat) (a : AugSt) (v : Nat), StInv G a →
      (∀ u ∈ L, EdgeG G u v) →
      (∀ u0, dlookup a.pred u0 = some (some v) → False) →
      RecOut G a v (recgo rec_ a v L) := by
  intro L
  induction L with
  | nil =>
    intro a v hInv hL hvptr
    exact ⟨hInv, fun _ _ h => h, fun _ _ h => h, fun _ h => h,
      fun _ h => Or.inl h, fun _ _ h => Or.inl h, fun _ => rfl,
      fun h => Bool.noConfusion h⟩
  | cons u rest ih =>
    intro a v hInv hL hvptr
    have hLrest : ∀ u0 ∈ rest, EdgeG G u0 v :=
      fun u0 h0 => hL u0 (List.mem_cons_of_mem u h0)
    have hedgeu : EdgeG G u v := hL u (List.mem_cons_self u rest)
    rcases hpu : dlookup a.pred u with _ | pu
    · have hstep : recgo rec_ a v (u :: rest) = recgo rec_ a v rest := by
        simp only [recgo, hpu]
      rw [hstep]
      exact ih a v hInv hLrest hvptr
    · have hInv1 : StInv G { a with pred := derase a.pred u } :=
        stInv_derase_pred G a u hInv
      have humem : u ∈ dkeys a.pred := by
        rw [← dlookup_isSome_iff, hpu]
        rfl
      cases pu with
      | none =>
        have hstep : recgo rec_ a v (u :: rest) =
            ({ a with pred := derase a.pred u, matching := dinsert a.matching v u }, true) := by
          simp only [recgo, hpu]
        rw [hstep]
        refine ⟨stInv_insert G { a with pred := derase a.pred u } v u hInv1
            hedgeu (fun v0 h0 => hInv.free u hpu v0 h0)
            (fun u0 h0 => hvptr u0 (dlookup_derase_sub _ _ _ _ hInv.ndPred h0))
            (dlookup_derase_self _ _ hInv.ndPred),
          fun _ _ h => h,
          fun u0 ov h0 => dlookup_derase_sub _ _ _ _ hInv.ndPred h0,
          fun v0 h0 => (mem_dkeys_dinsert _ _ _ _).mpr (Or.inl h0),
          fun v0 h0 => (mem_dkeys_dinsert _ _ _ _).mp h0,
          ?_, fun h => Bool.noConfusion h, ?_⟩
        · intro v0 u0 h0
          by_cases hv0 : v0 = v
          · rw [hv0, dlookup_dinsert_self] at h0
            exact Or.inr ((Option.some.inj h0) ▸ humem)
          · rw [dlookup_dinsert_ne _ _ _ _ hv0] at h0
            exact Or.inl h0
        · intro _
          refine ⟨⟨u, dlookup_dinsert_self _ _ _, humem⟩, ?_⟩
          by_cases hv0 : v ∈ dkeys a.matching
          · rw [if_pos hv0, length_dinsert_mem _ _ _ hv0]
            omega
          · rw [if_neg hv0, length_dinsert_not_mem _ _ _ hv0]
      | some v' =>
        have hmv' : dlookup a.matching v' = some u := hInv.jm u v' hpu
        have hv'mem : v' ∈ dkeys a.matching := dlookup_mem_keys hmv'
        have hvne : v' ≠ v := by
          intro he
          rw [he] at hpu
          exact hvptr u hpu
        have hnoptr' : ∀ u0,
            dlookup (derase a.pred u) u0 = some (some v') → False := by
          intro u0 h0
          have h0' : dlookup a.pred u0 = some (some v') :=
            dlookup_derase_sub _ _ _ _ hInv.ndPred h0
          have hu0 : dlookup a.matching v' = some u0 := hInv.jm u0 v' h0'
          have heq : u0 = u := Option.some.inj (hu0.symm.trans hmv')
          rw [heq, dlookup_derase_self _ _ hInv.ndPred] at h0
          exact Option.noConfusion h0
        have hout := hrec { a with pred := derase a.pred u } v' hInv1 hnoptr'
        rcases hr : rec_ { a with pred := derase a.pred u } v' with ⟨st', b⟩
        rw [hr] at hout
        have hpredSub1 : ∀ u0 ov, dlookup st'.pred u0 = some ov →
            dlookup a.pred u0 = some ov :=
          fun u0 ov h0 =>
            dlookup_derase_sub _ _ _ _ hInv.ndPred (hout.predSub u0 ov h0)
        cases b with
        | true =>
          obtain ⟨⟨u', hu'look, hu'mem⟩, hlen'⟩ := hout.tEq rfl
          have hunotkeys1 : u ∉ dkeys (derase a.pred u) := by
            intro hmm
            rw [← dlookup_isSome_iff, dlookup_derase_self _ _ hInv.ndPred] at hmm
            exact Bool.noConfusion hmm
          have hufree' : ∀ v0, dlookup st'.matching v0 = some u → False := by
            intro v0 h0
            rcases hout.entries v0 u h0 with he | he
            · have hv0 : v0 = v' := hInv.gm.2.2 v0 v' u he hmv'
              rw [hv0, hu'look] at h0
              rw [Option.some.inj h0] at hu'mem
              exact hunotkeys1 hu'mem
            · exact hunotkeys1 he
          have hstep : recgo rec_ a v (u :: rest) =
              ({ st' with matching := dinsert st'.matching v u }, true) := by
            simp only [recgo, hpu, hr]
          rw [hstep]
          have hnoptrst' : ∀ u0, dlookup st'.pred u0 = some (some v) → False :=
            fun u0 h0 => hvptr u0 (hpredSub1 u0 _ h0)
          have hupredst' : dlookup st'.pred u = none := by
            rcases hco : dlookup st'.pred u with _ | ov
            · rfl
            · have hcc := hout.predSub u ov hco
              rw [dlookup_derase_self _ _ hInv.ndPred] at hcc
              exact Option.noConfusion hcc
          have hvkeys : v ∈ dkeys st'.matching ↔ v ∈ dkeys a.matching := by
            constructor
            · intro h0
              rcases hout.keysSub v h0 with h1 | h1
              · exact h1
              · exact absurd h1.symm hvne
            · exact hout.keysMono v
          refine ⟨stInv_insert G st' v u hout.inv hedgeu hufree'
              hnoptrst' hupredst',
            fun v0 L0 h0 => hout.predsSub v0 L0 h0,
            fun u0 ov h0 => hpredSub1 u0 ov h0,
            fun v0 h0 =>
              (mem_dkeys_dinsert _ _ _ _).mpr (Or.inl (hout.keysMono v0 h0)),
            ?_, ?_, fun h => Bool.noConfusion h, ?_⟩
          · intro v0 h0
            rcases (mem_dkeys_dinsert _ _ _ _).mp h0 with h1 | h1
            · rcases hout.keysSub v0 h1 with h2 | h2
              · exact Or.inl h2
              · rw [h2]
                exact Or.inl hv'mem
            · exact Or.inr h1
          · intro v0 u0 h0
            by_cases hv0 : v0 = v
            · rw [hv0, dlookup_dinsert_self] at h0
              exact Or.inr ((Option.some.inj h0) ▸ humem)
            · rw [dlookup_dinsert_ne _ _ _ _ hv0] at h0
              rcases hout.entries v0 u0 h0 with h1 | h1
              · exact Or.inl h1
              · exact Or.inr (mem_dkeys_derase _ _ _ h1)
          · intro _
            refine ⟨⟨u, dlookup_dinsert_self _ _ _, humem⟩, ?_⟩
            have hlen'' : st'.matching.length = a.matching.length := by
              rw [hlen', if_pos hv'mem]
              rfl
            by_cases hv0 : v ∈ dkeys a.matching
            · rw [if_pos hv0, length_dinsert_mem _ _ _ (hvkeys.mpr hv0), hlen'']
              omega
            · rw [if_neg hv0,
                length_dinsert_not_mem _ _ _ (fun hmm => hv0 (hvkeys.mp hmm)),
                hlen'']
        | false =>
          have hfE : st'.matching = a.matching := hout.fEq rfl
          have hstep : recgo rec_ a v (u :: rest) = recgo rec_ st' v rest := by
            simp only [recgo, hpu, hr]
          rw [hstep]
          have hres := ih st' v hout.inv hLrest
            (fun u0 h0 => hvptr u0 (hpredSub1 u0 _ h0))
          refine ⟨hres.inv,
            fun v0 L0 h0 => hout.predsSub v0 L0 (hres.predsSub v0 L0 h0),
            fun u0 ov h0 => hpredSub1 u0 ov (hres.predSub u0 ov h0),
            ?_, ?_, ?_, ?_, ?_⟩
          · intro v0 h0
            refine hres.keysMono v0 ?_
            rw [hfE]
            exact h0
          · intro v0 h0
            rcases hres.keysSub v0 h0 with h1 | h1
            · rw [hfE] at h1
              exact Or.inl h1
            · exact Or.inr h1
          · intro v0 u0 h0
            rcases hres.entries v0 u0 h0 with h1 | h1
            · rw [hfE] at h1
              exact Or.inl h1
            · right
              obtain ⟨ov, hov⟩ := Option.isSome_iff_exists.mp
                ((dlookup_isSome_iff st'.pred u0).mpr h1)
              rw [← dlookup_isSome_iff, hpredSub1 u0 ov hov]
              rfl
          · intro h
            rw [hres.fEq h]
            exact hfE
          · intro h
            obtain ⟨⟨u', h1, h2⟩, h3⟩ := hres.tEq h
            refine ⟨⟨u', h1, ?_⟩, ?_⟩
            · obtain ⟨ov, hov⟩ := Option.isSome_iff_exists.mp
                ((dlookup_isSome_iff st'.pred u').mpr h2)
              rw [← dlookup_isSome_iff, hpredSub1 u' ov hov]
              rfl
            · rw [h3, hfE]

/-- `recurse` honors the `RecOut` contract at every fuel. -/
theorem recurse_out (G : List (Nat × List Nat)) :
    ∀ (fuel : Nat) (a : AugSt) (v : Nat), StInv G a →
      (∀ u0, dlookup a.pred u0 = some (some v) → False) →
      RecOut G a v (recurse fuel a v) := by
  intro fuel
  induction fuel with
  | zero =>
    intro a v hInv hvptr
    exact ⟨hInv, fun _ _ h => h, fun _ _ h => h, fun _ h => h,
      fun _ h => Or.inl h, fun _ _ h => Or.inl h, fun _ => rfl,
      fun h => Bool.noConfusion h⟩
  | succ fuel ih =>
    intro a v hInv hvptr
    rcases hLv : dlookup a.preds v with _ | L
    · have hstep : recurse (fuel + 1) a v = (a, false) := by
        simp only [recurse, hLv]
      rw [hstep]
      exact ⟨hInv, fun _ _ h => h, fun _ _ h => h, fun _ h => h,
        fun _ h => Or.inl h, fun _ _ h => Or.inl h, fun _ => rfl,
        fun h => Bool.noConfusion h⟩
    · have hstep : recurse (fuel + 1) a v =
          recgo (recurse fuel) { a with preds := derase a.preds v } v L := by
        simp only [recurse, hLv]
      rw [hstep]
      have hres := recgo_out G (recurse fuel)
        (fun a0 v0 h0 hp0 => ih a0 v0 h0 hp0) L
        { a with preds := derase a.preds v } v
        (stInv_derase_preds G a v hInv)
        (fun u0 hu0 => hInv.edges v L hLv u0 hu0)
        hvptr
      exact ⟨hres.inv,
        fun v0 L0 h0 =>
          dlookup_derase_sub _ _ _ _ hInv.ndPreds (hres.predsSub v0 L0 h0),
        hres.predSub, hres.keysMono, hres.keysSub, hres.entries,
        hres.fEq, hres.tEq⟩

end MirEval

namespace MirEval

/-- Progress of the augmenting search: starting from a state whose `preds`
and `pred` tables agree with the tables `preds0`/`pred0` left by the
layering phase on every vertex of rank below the start, `recurse` finds an
augmenting path.  Ranks decrease strictly along `preds` lists and weakly
along `pred` pointers, so the search descends the first neighbor of every
frame without ever meeting a deleted entry, and the flag (`pu = none`)
terminates it before the fuel runs out. -/
theorem recurse_success
    (preds0 : List (Nat × List Nat)) (pred0 : List (Nat × Option Nat))
    (rU rV : Nat → Nat)
    (hcl : ∀ v L, dlookup preds0 v = some L → L ≠ [] ∧
      ∀ u ∈ L, (dlookup pred0 u).isSome)
    (hrk : ∀ v L, dlookup preds0 v = some L → ∀ u ∈ L, rU u < rV v)
    (hpt : ∀ u v2, dlookup pred0 u = some (some v2) →
      rV v2 ≤ rU u ∧ v2 ∈ dkeys preds0) :
    ∀ (fuel : Nat) (a : AugSt) (v : Nat),
      (dkeys a.preds).Nodup →
      (dkeys a.pred).Nodup →
      (∀ v0, v0 ∈ dkeys preds0 → rV v0 ≤ rV v →
        dlookup a.preds v0 = dlookup preds0 v0) →
      (∀ u0, u0 ∈ dkeys pred0 → rU u0 < rV v →
        dlookup a.pred u0 = dlookup pred0 u0) →
      v ∈ dkeys preds0 →
      rV v < fuel →
      (recurse fuel a v).2 = true := by
  intro fuel
  induction fuel with
  | zero =>
    intro a v _ _ _ _ _ hlt
    exact absurd hlt (Nat.not_lt_zero _)
  | succ fuel ih =>
    intro a v hndPreds hndPred hD2 hD4 hvmem hlt
    obtain ⟨L0, hL0⟩ := Option.isSome_iff_exists.mp
      ((dlookup_isSome_iff preds0 v).mpr hvmem)
    have hLa : dlookup a.preds v = some L0 := by
      rw [hD2 v hvmem (Nat.le_refl _)]
      exact hL0
    obtain ⟨hL0ne, hL0pred⟩ := hcl v L0 hL0
    rcases L0 with _ | ⟨u, L0rest⟩
    · exact absurd rfl hL0ne
    have hrUu : rU u < rV v := hrk v _ hL0 u (List.mem_cons_self u L0rest)
    obtain ⟨ov, hov⟩ := Option.isSome_iff_exists.mp
      (hL0pred u (List.mem_cons_self u L0rest))
    have humem0 : u ∈ dkeys pred0 := by
      rw [← dlookup_isSome_iff, hov]
      rfl
    have hpua : dlookup a.pred u = some ov := by
      rw [hD4 u humem0 hrUu]
      exact hov
    cases ov with
    | none =>
      have hred : recurse (fuel + 1) a v =
          ({ a with preds := derase a.preds v, pred := derase a.pred u, matching := dinsert a.matching v u }, true) := by
        simp only [recurse, hLa, recgo, hpua]
      rw [hred]
    | some v2 =>
      obtain ⟨hv2le, hv2mem⟩ := hpt u v2 hov
      have hsucc := ih
        { a with preds := derase a.preds v, pred := derase a.pred u } v2
        (dkeys_derase_nodup _ _ hndPreds)
        (dkeys_derase_nodup _ _ hndPred)
        (by
          intro v0 h0 hle
          have hne : v0 ≠ v := by
            intro he
            rw [he] at hle
            omega
          show dlookup (derase a.preds v) v0 = dlookup preds0 v0
          rw [dlookup_derase_ne _ _ _ hne]
          exact hD2 v0 h0 (by omega))
        (by
          intro u0 h0 hlt0
          have hne : u0 ≠ u := by
            intro he
            rw [he] at hlt0
            omega
          show dlookup (derase a.pred u) u0 = dlookup pred0 u0
          rw [dlookup_derase_ne _ _ _ hne]
          exact hD4 u0 h0 (by omega))
        hv2mem
        (by omega)
      rcases hrr : recurse fuel
          { a with preds := derase a.preds v, pred := derase a.pred u } v2
        with ⟨st2, b2⟩
      rw [hrr] at hsucc
      have hb2 : b2 = true := hsucc
      rw [hb2] at hrr
      have hred : recurse (fuel + 1) a v =
          ({ st2 with matching := dinsert st2.matching v u }, true) := by
        simp only [recurse, hLa, recgo, hpua, hrr]
      rw [hred]

end MirEval

namespace MirEval

/-- The augmentation sweep of one outer round (`for v in unmatched`):
starting from the layering tables and a matching `m`, it yields a state
whose matching is still a matching of `G` and is strictly larger than `m`
(the first unmatched `v` always admits an augmenting path). -/
theorem phase_spec (G : List (Nat × List Nat)) (m : List (Nat × Nat))
    (hm : IsGMatching G m) (st : BfsSt) (inv : BfsInv G m st)
    (hum : st.unmatched ≠ []) :
    IsGMatching G (st.unmatched.foldl
      (fun (a : AugSt) v => (recurse (a.preds.length + 1) a v).1)
      ⟨st.preds, st.pred, m⟩).matching ∧
    m.length + 1 ≤ (st.unmatched.foldl
      (fun (a : AugSt) v => (recurse (a.preds.length + 1) a v).1)
      ⟨st.preds, st.pred, m⟩).matching.length := by
  have hInv0 : StInv G ⟨st.preds, st.pred, m⟩ :=
    ⟨inv.ndPreds, inv.ndPred, hm,
      fun v L h u hu => ((inv.cl v L h).2 u hu).1,
      fun u v' h => (inv.j u v' h).1,
      fun u h v0 hv0 => (inv.flagFree u h).1 ⟨v0, hv0⟩⟩
  have hvptr0 : ∀ v1, v1 ∈ st.unmatched →
      ∀ (a : AugSt), (∀ u0 ov, dlookup a.pred u0 = some ov →
        dlookup st.pred u0 = some ov) →
      ∀ u0, dlookup a.pred u0 = some (some v1) → False := by
    intro v1 hv1 a hsub u0 h0
    have h1 : dlookup st.pred u0 = some (some v1) := hsub u0 _ h0
    have h2 : dlookup m v1 = some u0 := (inv.j u0 v1 h1).1
    rw [(inv.umGood v1 hv1).2] at h2
    exact Option.noConfusion h2
  -- the generic sweep over a suffix of `unmatched`
  have hfold : ∀ (l : List Nat) (a : AugSt), (∀ x ∈ l, x ∈ st.unmatched) →
      StInv G a →
      (∀ u0 ov, dlookup a.pred u0 = some ov → dlookup st.pred u0 = some ov) →
      m.length + 1 ≤ a.matching.length →
      IsGMatching G (l.foldl
        (fun (a : AugSt) v => (recurse (a.preds.length + 1) a v).1) a).matching ∧
      m.length + 1 ≤ (l.foldl
        (fun (a : AugSt) v => (recurse (a.preds.length + 1) a v).1) a).matching.length := by
    intro l
    induction l with
    | nil =>
      intro a _ hInv _ hlen
      exact ⟨hInv.gm, hlen⟩
    | cons v1 lrest ihl =>
      intro a hmem hInv hsub hlen
      have rout := recurse_out G (a.preds.length + 1) a v1 hInv
        (hvptr0 v1 (hmem v1 (List.mem_cons_self v1 lrest)) a hsub)
      rw [List.foldl_cons]
      refine ihl _ (fun x hx => hmem x (List.mem_cons_of_mem v1 hx)) rout.inv
        (fun u0 ov h0 => hsub u0 ov (rout.predSub u0 ov h0)) ?_
      rcases hb : (recurse (a.preds.length + 1) a v1).2 with _ | _
      · rw [rout.fEq hb]
        exact hlen
      · obtain ⟨_, hl⟩ := rout.tEq hb
        rw [hl]
        by_cases hvk : v1 ∈ dkeys a.matching
        · rw [if_pos hvk]
          omega
        · rw [if_neg hvk]
          omega
  -- peel the head: it always augments
  rcases hu : st.unmatched with _ | ⟨v0, vrest⟩
  · exact absurd hu hum
  have hv0um : v0 ∈ st.unmatched := by
    rw [hu]
    exact List.mem_cons_self v0 vrest
  obtain ⟨k, rU, rV, hk, hpredsRk, hpredRk, _⟩ := inv.ranks
  have hv0preds : v0 ∈ dkeys st.preds := (inv.umGood v0 hv0um).1
  obtain ⟨L0, hL0⟩ := Option.isSome_iff_exists.mp
    ((dlookup_isSome_iff st.preds v0).mpr hv0preds)
  have hsucc : (recurse (st.preds.length + 1) ⟨st.preds, st.pred, m⟩ v0).2 = true := by
    refine recurse_success st.preds st.pred rU rV ?_ ?_ ?_
      (st.preds.length + 1) ⟨st.preds, st.pred, m⟩ v0
      inv.ndPreds inv.ndPred (fun _ _ _ => rfl) (fun _ _ _ => rfl) hv0preds ?_
    · intro v L h
      refine ⟨(inv.cl v L h).1, ?_⟩
      intro u hu
      obtain ⟨ov, hov, _⟩ := ((inv.cl v L h).2 u hu).2
      rw [hov]
      rfl
    · intro v L h u hu
      exact (hpredsRk v L h).2 u hu
    · intro u v2 h
      exact ⟨hpredRk u v2 h, (inv.j u v2 h).2⟩
    · have h1 : rV v0 ≤ k := (hpredsRk v0 L0 hL0).1
      omega
  have rout0 := recurse_out G (st.preds.length + 1) ⟨st.preds, st.pred, m⟩ v0 hInv0
    (hvptr0 v0 hv0um ⟨st.preds, st.pred, m⟩ (fun _ _ h => h))
  have hv0notkey : v0 ∉ dkeys m :=
    (dlookup_eq_none_iff m v0).mp (inv.umGood v0 hv0um).2
  have hlen1 : m.length + 1 ≤
      (recurse (st.preds.length + 1) ⟨st.preds, st.pred, m⟩ v0).1.matching.length := by
    obtain ⟨_, hl⟩ := rout0.tEq hsucc
    rw [hl, if_neg hv0notkey]
  rw [List.foldl_cons]
  exact hfold vrest _ (fun x hx => by rw [hu]; exact List.mem_cons_of_mem v0 hx)
    rout0.inv (fun u0 ov h0 => rout0.predSub u0 ov h0) hlen1

end MirEval

namespace MirEval

theorem gmatching_length_le (G : List (Nat × List Nat)) (m : List (Nat × Nat))
    (hm : IsGMatching G m) : m.length ≤ (vset G).length := by
  have h2 : ∀ v ∈ dkeys m, v ∈ vset G := by
    intro v hv
    obtain ⟨u, hu⟩ := Option.isSome_iff_exists.mp ((dlookup_isSome_iff m v).mpr hv)
    exact edgeG_mem_vset G u v (hm.2.1 v u hu)
  have h3 := nodup_subset_length_le hm.1 h2
  rw [dkeys, List.length_map] at h3
  exact h3

/-- The outer loop of `_bipartite_match`: with enough fuel it returns a
matching of `G` of maximum cardinality.  Every non-returning round grows
the matching by at least one and the matching size is capped by the number
of distinct `V` vertices, so `(vset G).length + 1` rounds beyond the
current size always suffice; at the returning round the layering tables
provide the König-style cover that bounds every competing matching. -/
theorem bmLoop_spec (G : List (Nat × List Nat)) (hndG : (dkeys G).Nodup) :
    ∀ (fuel : Nat) (m : List (Nat × Nat)), IsGMatching G m →
      (vset G).length + 1 ≤ fuel + m.length →
      ∃ M, bmLoop G fuel m = some M ∧ IsGMatching G M ∧
        ∀ P : Finset (Nat × Nat), IsMatchingOf G P → P.card ≤ M.length := by
  intro fuel
  induction fuel with
  | zero =>
    intro m hm hle
    have := gmatching_length_le G m hm
    omega
  | succ fuel ih =>
    intro m hm hle
    have inv0 := bfsInit G m hndG hm
    obtain ⟨st, hst⟩ := bfsLoop_some G m hm ((vset G).length + 2) _ inv0
      (Nat.le_add_right _ _)
    obtain ⟨invst, hexit⟩ := bfsLoop_post G m hm _ _ st inv0 hst
    by_cases hune : st.unmatched = []
    · have hret : bmLoop G (fuel + 1) m = some m := by
        simp only [bmLoop, hst, if_pos hune]
      refine ⟨m, hret, hm, ?_⟩
      intro P hP
      have hlayer : st.layer = [] := by
        rcases hexit with h | h
        · exact h
        · exact absurd hune h
      refine max_of_cover G m st.preds hm ?_ ?_ P hP
      · intro v hv
        rcases invst.f2 v hv with h | h
        · exact h
        · rw [hune] at h
          exact absurd h (List.not_mem_nil v)
      · intro u hrel w hw
        rcases invst.closure u hrel with h | h
        · rw [hlayer] at h
          exact absurd h (List.not_mem_nil u)
        · exact h w hw
    · obtain ⟨hgm', hlen'⟩ := phase_spec G m hm st invst hune
      have hrec : bmLoop G (fuel + 1) m = bmLoop G fuel
          (st.unmatched.foldl
            (fun (a : AugSt) v => (recurse (a.preds.length + 1) a v).1)
            ⟨st.preds, st.pred, m⟩).matching := by
        simp only [bmLoop, hst, if_neg hune]
      rw [hrec]
      exact ih _ hgm' (by omega)

/-- `_bipartite_match` always returns, and the returned `V → U` dict is a
maximum-cardinality matching of its input graph. -/
theorem bipartite_match_spec (G : List (Nat × List Nat))
    (hndG : (dkeys G).Nodup) :
    ∃ M, bipartite_match G = some M ∧ IsGMatching G M ∧
      ∀ P : Finset (Nat × Nat), IsMatchingOf G P → P.card ≤ M.length := by
  have h := bmLoop_spec G hndG ((vset G).length + 2) (greedy G)
    (greedy_isGMatching G hndG) (by omega)
  obtain ⟨M, h1, h2, h3⟩ := h
  exact ⟨M, h1, h2, h3⟩

end MirEval

namespace MirEval

/-! ### The compatibility graph built by `match_events` -/

theorem edgeG_dappend (g : List (Nat × List Nat)) (k x u v : Nat) :
    EdgeG (dappend g k x) u v ↔ EdgeG g u v ∨ (u = k ∧ v = x) := by
  by_cases hu : u = k
  · subst hu
    constructor
    · rintro ⟨L, hL, hv⟩
      rw [dlookup_dappend_self] at hL
      rw [← Option.some.inj hL] at hv
      rcases List.mem_append.mp hv with h | h
      · rcases hg : dlookup g u with _ | L0
        · rw [hg] at h
          exact absurd h (List.not_mem_nil v)
        · rw [hg] at h
          exact Or.inl ⟨L0, hg, h⟩
      · rcases List.mem_cons.mp h with h1 | h1
        · exact Or.inr ⟨rfl, h1⟩
        · exact absurd h1 (List.not_mem_nil v)
    · rintro (⟨L0, hg, hv⟩ | ⟨_, hvx⟩)
      · refine ⟨(dlookup g u).getD [] ++ [x], dlookup_dappend_self g u x, ?_⟩
        rw [hg]
        exact List.mem_append.mpr (Or.inl hv)
      · refine ⟨(dlookup g u).getD [] ++ [x], dlookup_dappend_self g u x, ?_⟩
        rw [hvx]
        exact List.mem_append.mpr (Or.inr (List.mem_cons_self x []))
  · constructor
    · rintro ⟨L, hL, hv⟩
      rw [dlookup_dappend_ne g k u x hu] at hL
      exact Or.inl ⟨L, hL, hv⟩
    · rintro (⟨L, hL, hv⟩ | ⟨he, _⟩)
      · refine ⟨L, ?_, hv⟩
        rw [dlookup_dappend_ne g k u x hu]
        exact hL
      · exact absurd he hu

theorem edgeG_foldl_dappend (l : List (Nat × Nat)) :
    ∀ (g : List (Nat × List Nat)) (u v : Nat),
      EdgeG (l.foldl (fun g p => dappend g p.1 p.2) g) u v ↔
        EdgeG g u v ∨ (u, v) ∈ l := by
  induction l with
  | nil =>
    intro g u v
    simp only [List.foldl_nil, List.not_mem_nil, or_false]
  | cons p t ih =>
    intro g u v
    rw [List.foldl_cons, ih, edgeG_dappend, List.mem_cons]
    constructor
    · rintro ((h | ⟨h1, h2⟩) | h)
      · exact Or.inl h
      · refine Or.inr (Or.inl ?_)
        rw [Prod.ext_iff]
        exact ⟨h1, h2⟩
      · exact Or.inr (Or.inr h)
    · rintro (h | (h | h))
      · exact Or.inl (Or.inl h)
      · rw [Prod.ext_iff] at h
        exact Or.inl (Or.inr h)
      · exact Or.inr h

theorem nodup_foldl_dappend (l : List (Nat × Nat)) :
    ∀ (g : List (Nat × List Nat)), (dkeys g).Nodup →
      (dkeys (l.foldl (fun g p => dappend g p.1 p.2) g)).Nodup := by
  induction l with
  | nil => intro g hg; exact hg
  | cons p t ih =>
    intro g hg
    rw [List.foldl_cons]
    exact ih _ (dkeys_dappend_nodup g p.1 p.2 hg)

theorem mem_hits_iff (ref est : List ℚ) (w : ℚ) (u v : Nat) :
    (u, v) ∈ (List.range ref.length).flatMap (fun i =>
      (List.range est.length).filterMap (fun j =>
        if pyabs (ref.getD i 0 - est.getD j 0) ≤ w then some (i, j) else none)) ↔
    u < ref.length ∧ v < est.length ∧ pyabs (ref.getD u 0 - est.getD v 0) ≤ w := by
  rw [List.mem_flatMap]
  constructor
  · rintro ⟨i, hi, hmem⟩
    rw [List.mem_filterMap] at hmem
    obtain ⟨j, hj, heq⟩ := hmem
    by_cases hc : pyabs (ref.getD i 0 - est.getD j 0) ≤ w
    · rw [if_pos hc] at heq
      have hpair := Option.some.inj heq
      have hiu : i = u := congrArg Prod.fst hpair
      have hjv : j = v := congrArg Prod.snd hpair
      subst hiu
      subst hjv
      exact ⟨List.mem_range.mp hi, List.mem_range.mp hj, hc⟩
    · rw [if_neg hc] at heq
      exact Option.noConfusion heq
  · rintro ⟨h1, h2, h3⟩
    refine ⟨u, List.mem_range.mpr h1, List.mem_filterMap.mpr
      ⟨v, List.mem_range.mpr h2, ?_⟩⟩
    rw [if_pos h3]

/-- The graph assembled at src/mir_eval/util.py:505-513 has exactly the
window-compatible pairs as edges (keyed by reference index). -/
theorem edgeG_buildGraph (ref est : List ℚ) (w : ℚ) (u v : Nat) :
    EdgeG (buildGraph ref est w) u v ↔
      u < ref.length ∧ v < est.length ∧ |ref.getD u 0 - est.getD v 0| ≤ w := by
  rw [buildGraph, edgeG_foldl_dappend, mem_hits_iff, pyabs_eq_abs]
  constructor
  · rintro (⟨L, hL, _⟩ | h)
    · exact Option.noConfusion hL
    · exact h
  · exact Or.inr

theorem buildGraph_keys_nodup (ref est : List ℚ) (w : ℚ) :
    (dkeys (buildGraph ref est w)).Nodup :=
  nodup_foldl_dappend _ [] List.nodup_nil

end MirEval

namespace MirEval

/-- C1: for every compatibility graph derived by `match_events` (edges
exactly the pairs `(i, j)` with `|ref[i] - est[j]| <= window`), the set of
pairs returned has maximum cardinality: the call always returns a list
that is itself a matching of that graph (in the code's `(est_index,
ref_index)` orientation), and no matching of the same graph — any set of
window-compatible `(ref_index, est_index)` pairs repeating no index on
either side — contains strictly more pairs. -/
theorem match_events_maximum (ref est : List ℚ) (window : ℚ) :
    ∃ M, match_events ref est window = some M ∧
      (∀ p ∈ M, p.2 < ref.length ∧ p.1 < est.length ∧
        |ref.getD p.2 0 - est.getD p.1 0| ≤ window) ∧
      (∀ p ∈ M, ∀ q ∈ M, p.1 = q.1 → p = q) ∧
      (∀ p ∈ M, ∀ q ∈ M, p.2 = q.2 → p = q) ∧
      ∀ P : Finset (Nat × Nat),
        (∀ p ∈ P, p.1 < ref.length ∧ p.2 < est.length ∧
          |ref.getD p.1 0 - est.getD p.2 0| ≤ window) →
        (∀ p ∈ P, ∀ q ∈ P, p.1 = q.1 → p = q) →
        (∀ p ∈ P, ∀ q ∈ P, p.2 = q.2 → p = q) →
        P.card ≤ M.length := by
  obtain ⟨M0, hM0, hgm, hmax⟩ := bipartite_match_spec (buildGraph ref est window)
    (buildGraph_keys_nodup ref est window)
  have hlook : ∀ p ∈ M0, dlookup M0 p.1 = some p.2 := by
    intro p hp
    exact dlookup_of_mem hgm.1 (by
      have hpe : (p.1, p.2) = p := rfl
      rw [hpe]
      exact hp)
  refine ⟨pysort M0, ?_, ?_, ?_, ?_, ?_⟩
  · rw [match_events, hM0]
    rfl
  · intro p hp
    have hpm : p ∈ M0 := (mem_pysort p M0).mp hp
    have hedge := hgm.2.1 p.1 p.2 (hlook p hpm)
    rw [edgeG_buildGraph] at hedge
    exact hedge
  · intro p hp q hq he
    have hpm := (mem_pysort p M0).mp hp
    have hqm := (mem_pysort q M0).mp hq
    have h1 := hlook p hpm
    have h2 := hlook q hqm
    rw [he] at h1
    rw [h1] at h2
    rw [Prod.ext_iff]
    exact ⟨he, Option.some.inj h2⟩
  · intro p hp q hq he
    have hpm := (mem_pysort p M0).mp hp
    have hqm := (mem_pysort q M0).mp hq
    have h1 := hlook p hpm
    have h2 := hlook q hqm
    rw [he] at h1
    have hk := hgm.2.2 p.1 q.1 q.2 h1 h2
    rw [Prod.ext_iff]
    exact ⟨hk, he⟩
  · intro P hPedge hPl hPr
    have hcard := hmax P ⟨?_, hPl, hPr⟩
    · rw [length_pysort]
      exact hcard
    · intro p hp
      rw [edgeG_buildGraph]
      exact hPedge p hp

end MirEval
